import Mathlib

/-!
Verification of the `arcgitflow` gitflow tool (`gitflow.py`).

The development shallowly embeds the core of the program:
* branch / DAG data model and `build_git_dag`,
* the recursive tree walk `print_tree` (rendering plus the cascading-rebase
  engine) and `print_dag`,
* the divergence calculator `commit_delta_by_branch_name`,
* the orchestrator `main`.

Side effects (prints, rebases, pushes, checkouts) are modelled as a trace of
structured events; the external VCS (git, reached through the GitPython shim)
is modelled as an oracle deciding which rebases / pushes / checkouts fail.
String-only log lines (announcements, command echoes, colors) carry no
semantic content and are not modelled as separate events.
-/

/-- Embeds `branch_name`'s treatment of a branch object: `branch.name.lstrip("./")`
removes every leading `.` and `/` character. Plain strings pass through
`branch_name` unchanged in the source, and are kept unchanged in this model. -/
def stripName (s : String) : String :=
  ⟨s.data.dropWhile (fun c => c == '.' || c == '/')⟩

/-- A local branch as the core reads it: its raw name and the raw name of its
tracking branch, when one is configured (GitPython `Head.tracking_branch()`). -/
structure Branch where
  name : String
  tracking : Option String
deriving DecidableEq, Repr

/-- The gitflow dependency graph: a Python dict from branch name to the list of
child branch objects, modelled as a partial map.  `none` means the name is not
a key of the dict. -/
def Dag : Type := String → Option (List Branch)

/-- Child list of a key; a missing key has no children (`defaultdict(list)`). -/
def childListF (dag : Dag) (k : String) : List Branch :=
  (dag k).getD []

/-- Embeds `dag.setdefault(bname, [])`. -/
def dagSetdefault (d : Dag) (k : String) : Dag :=
  fun x => if x = k then some ((d k).getD []) else d x

/-- Embeds `dag[tbname].append(b)` on a `defaultdict(list)`: the access creates
the entry when absent, then the branch is appended. -/
def dagAppendChild (d : Dag) (k : String) (b : Branch) : Dag :=
  fun x => if x = k then some ((d k).getD [] ++ [b]) else d x

/-- Embeds Python `tbname.startswith("origin")`: the second string is a prefix
of the first (structurally recursive so concrete instances evaluate). -/
def pyStartsWith (s start : String) : Bool :=
  start.data.isPrefixOf s.data

/-- Loop body accumulation of `build_git_dag`: iterates the repository's local
branches in enumeration order, threading the dict and the roots list. -/
def buildGitDagAux : List Branch → Dag → List String → Dag × List String
  | [], dag, roots => (dag, roots)
  | b :: bs, dag, roots =>
    let bname := stripName b.name
    let dag1 := dagSetdefault dag bname
    match b.tracking with
    | some tb =>
      let tbname := stripName tb
      let roots1 := if pyStartsWith tbname "origin" then roots ++ [tbname] else roots
      buildGitDagAux bs (dagAppendChild dag1 tbname b) roots1
    | none => buildGitDagAux bs dag1 (roots ++ [bname])

/-- Embeds `build_git_dag(r)`: returns the dependency dict and the roots list. -/
def buildGitDag (branches : List Branch) : Dag × List String :=
  buildGitDagAux branches (fun _ => none) []

/-- Specification helper: the root names a single branch contributes in
`build_git_dag` (its tracking name when remote-prefixed, its own name when
untracked). -/
def rootContrib (b : Branch) : List String :=
  match b.tracking with
  | some t => if pyStartsWith (stripName t) "origin" then [stripName t] else []
  | none => [stripName b.name]

/-- Specification helper: all root names contributed by a branch enumeration. -/
def rootsContrib (bs : List Branch) : List String :=
  bs.flatMap rootContrib

/-- Specification helper: the branches of an enumeration that end up in the
child list of key `k`. -/
def childrenContrib (k : String) (bs : List Branch) : List Branch :=
  bs.filter (fun b =>
    match b.tracking with
    | some t => stripName t == k
    | none => false)

/-- Structured side-effect trace of the walk and of the orchestrator. -/
inductive Event where
  /-- A `create_branch_str` line was printed for branch `bname` at `depth`
  (with `parent` the divergence reference, `""` at depth 0). -/
  | printBranch (bname : String) (depth : Nat) (parent : String)
  /-- `rebase_onto` invoked git rebase of `child` onto `parent`. -/
  | rebaseAttempt (parent child : String)
  /-- The cascade failure message for `child` was printed. -/
  | rebaseFailLog (child : String)
  /-- `abort_reabse` invoked `git rebase --abort`. -/
  | abortRebase
  /-- `abort_reabse` caught the abort failure and printed its log line. -/
  | abortFailLog
  /-- `force_push_no_verify` invoked the force push of `branch`. -/
  | pushAttempt (branch : String)
  /-- `force_push_no_verify` caught the push failure and printed its log. -/
  | pushFailLog (branch : String)
  /-- A checkout of the named branch was performed. -/
  | checkoutCall (target : String)
  /-- Models `repo.git.checkout(None)`: GitPython drops `None` arguments, so a
  plain `git checkout` runs, a successful no-op. -/
  | checkoutNoTarget
  /-- `refresh_branch` fetched and reset the named branch. -/
  | refreshCall (branch : String)
  /-- `refresh_branch` caught a failure and printed its log line. -/
  | refreshFailLog (branch : String)
deriving DecidableEq, Repr

/-- Oracle for the external VCS: which mutation primitives fail on which
arguments.  A `true` entry means the underlying git command raises
`GitCommandError`. -/
structure VcsOracle where
  rebaseFails : String → String → Bool
  pushFails : String → Bool
  abortFails : Bool
  checkoutFails : String → Bool
  refreshFails : String → Bool

/-- Embeds `abort_reabse(repo)`: always invokes `git rebase --abort`; a failure
(no rebase in progress) is caught and logged, never propagated — the function
is total. -/
def abort_reabse (ora : VcsOracle) : List Event :=
  if ora.abortFails then [Event.abortRebase, Event.abortFailLog]
  else [Event.abortRebase]

/-- Embeds `force_push_no_verify(repo, branch)`: always attempts the push; a
failure is caught and logged, never propagated — the function is total. -/
def force_push_no_verify (ora : VcsOracle) (branch : String) : List Event :=
  if ora.pushFails branch then [Event.pushAttempt branch, Event.pushFailLog branch]
  else [Event.pushAttempt branch]

/-- The two ways a walk fails to return a value: `fuelOut` is the model's
bound on the recursion (a cyclic dag, on which the program never returns
normally either), and `assertErr` an uncaught `AssertionError` raised by the
`assert` inside `branch_name` — either a child without a tracking branch, or
`create_branch_str` reading an undeterminable (`None`) active branch. -/
inductive WalkErr where
  | fuelOut
  | assertErr
deriving DecidableEq, Repr

/-- Embeds the `for branch in dag[current_branch_name]` loop of `print_tree`.
`recurse` is the recursive `print_tree` call at `depth + 1`; `active` is the
active branch `print_tree` read (`none` on a detached HEAD).  Each iteration
evaluates `branch_name(branch.tracking_branch())` (asserting when the child is
untracked) and then `create_branch_str`, which calls `branch_name` on the
active branch (asserting when that is `None`), before the cascade block.
On a rebase failure the handler logs, aborts the rebase, skips the push and
`continue`s with the next sibling without recursing into the child. -/
def printTreeLoop (ora : VcsOracle) (cascade push : Bool) (active : Option String)
    (recurse : String → Except WalkErr (List Event × Bool)) (depth : Nat) :
    List Branch → Except WalkErr (List Event × Bool)
  | [] => Except.ok ([], true)
  | b :: bs =>
    match b.tracking with
    | none => Except.error WalkErr.assertErr
    | some tb =>
      match active with
      | none => Except.error WalkErr.assertErr
      | some _ =>
        let bname := stripName b.name
        let parent := stripName tb
        let step : List Event × Bool :=
          if cascade then
            if ora.rebaseFails parent bname then
              ([Event.rebaseAttempt parent bname, Event.rebaseFailLog bname] ++
                 abort_reabse ora, false)
            else
              ([Event.rebaseAttempt parent bname] ++
                 (if push then force_push_no_verify ora bname else []), true)
          else ([], true)
        if step.2 then
          match recurse bname with
          | Except.error e => Except.error e
          | Except.ok (evs, r) =>
            if r then
              match printTreeLoop ora cascade push active recurse depth bs with
              | Except.error e => Except.error e
              | Except.ok (evs2, r2) =>
                Except.ok (Event.printBranch bname depth parent ::
                  (step.1 ++ (evs ++ evs2)), r2)
            else
              Except.ok (Event.printBranch bname depth parent ::
                (step.1 ++ evs), false)
        else
          match printTreeLoop ora cascade push active recurse depth bs with
          | Except.error e => Except.error e
          | Except.ok (evs2, r2) =>
            Except.ok (Event.printBranch bname depth parent :: (step.1 ++ evs2), r2)

/-- Embeds `print_tree(dag, current_branch_name, depth, repo, cascade, color,
push_updates)`.  `active` is `active_branch_from_repo(repo)` (`none` on a
detached HEAD; constant through a walk since rendering does not change it and
a cascade only ever runs attached).  The membership test precedes every print,
so an absent key returns `True` regardless of `active`; at depth 0 the root's
`create_branch_str` asserts when `active` is `None`. -/
def printTree (ora : VcsOracle) (dag : Dag) (cascade push : Bool)
    (active : Option String) :
    Nat → String → Nat → Except WalkErr (List Event × Bool)
  | 0, _, _ => Except.error WalkErr.fuelOut
  | fuel + 1, name, depth =>
    if (dag name).isNone then Except.ok ([], true)
    else if depth = 0 then
      match active with
      | none => Except.error WalkErr.assertErr
      | some _ =>
        match printTree ora dag cascade push active fuel name 1 with
        | Except.error e => Except.error e
        | Except.ok (evs, r) => Except.ok (Event.printBranch name 0 "" :: evs, r)
    else
      printTreeLoop ora cascade push active
        (fun c => printTree ora dag cascade push active fuel c (depth + 1)) depth
        (childListF dag name)

/-- Embeds `print_dag(dag, roots, repo, cascade, color, push_updates)`: walks
each root in order, stopping early when a tree walk returns `False`.  A root of
`none` models `print_tree(dag, None, 0)`, whose membership test fails at once
(before any print, so it cannot assert). -/
def print_dag (ora : VcsOracle) (dag : Dag) (cascade push : Bool)
    (active : Option String) (fuel : Nat) :
    List (Option String) → Except WalkErr (List Event)
  | [] => Except.ok []
  | none :: rs => print_dag ora dag cascade push active fuel rs
  | some r :: rs =>
    match printTree ora dag cascade push active fuel r 0 with
    | Except.error e => Except.error e
    | Except.ok (evs, flag) =>
      if flag then
        match print_dag ora dag cascade push active fuel rs with
        | Except.error e => Except.error e
        | Except.ok evs2 => Except.ok (evs ++ evs2)
      else Except.ok evs

/-- Events a single root contributes to `print_dag`, when its walk returns. -/
def treeEvents (ora : VcsOracle) (dag : Dag) (cascade push : Bool)
    (active : Option String) (fuel : Nat) : Option String → List Event
  | none => []
  | some r =>
    match printTree ora dag cascade push active fuel r 0 with
    | Except.ok p => p.1
    | Except.error _ => []

/-- Branch names rendered in a trace, in print order. -/
def printNames (evs : List Event) : List String :=
  evs.filterMap (fun e =>
    match e with
    | Event.printBranch n _ _ => some n
    | _ => none)

/-- Whether the walk expands a child edge: in cascade mode the rebase of the
child onto its tracking branch must succeed; outside cascade mode every tracked
child is expanded. -/
def edgeOkB (ora : VcsOracle) (cascade : Bool) (b : Branch) : Bool :=
  match b.tracking with
  | none => false
  | some t => !cascade || !ora.rebaseFails (stripName t) (stripName b.name)

/-- Every child in every child list carries a tracking branch — true of every
dag `build_git_dag` produces, and required by `print_tree`, which reads
`branch.tracking_branch()` of each child unconditionally. -/
def WellFormedDag (dag : Dag) : Prop :=
  ∀ k l, dag k = some l → ∀ b ∈ l, (b.tracking).isSome = true

/-- Acyclicity witness: a rank function strictly decreasing along child edges. -/
def AcyclicDag (dag : Dag) (rank : String → Nat) : Prop :=
  ∀ k l, dag k = some l → ∀ b ∈ l, rank (stripName b.name) < rank k

/-- Forest shape: child names are unique within one list, and no name occurs in
the child lists of two different keys — the shape of every dag built from
tracking metadata, where each branch is appended only under its unique
tracking branch. -/
def ForestDag (dag : Dag) : Prop :=
  (∀ k l, dag k = some l → (l.map (fun b => stripName b.name)).Nodup) ∧
  (∀ k1 l1 k2 l2 b1 b2, dag k1 = some l1 → dag k2 = some l2 → b1 ∈ l1 → b2 ∈ l2 →
     stripName b1.name = stripName b2.name → k1 = k2)

/-- `SubVis dag ok x c`: the walk started strictly below `x` reaches a printed
line for `c`; children of `x` are always printed, and the walk continues below
a child only when its edge satisfies `ok`. -/
inductive SubVis (dag : Dag) (ok : Branch → Prop) : String → String → Prop where
  | child {x : String} {l : List Branch} {b : Branch} :
      dag x = some l → b ∈ l → SubVis dag ok x (stripName b.name)
  | step {x c : String} {l : List Branch} {b : Branch} :
      dag x = some l → b ∈ l → ok b → SubVis dag ok (stripName b.name) c →
      SubVis dag ok x c

/-- Propositional form of `edgeOkB`. -/
def okP (ora : VcsOracle) (cascade : Bool) : Branch → Prop :=
  fun b => edgeOkB ora cascade b = true

/-- Names printed by the child loop over `L`: each branch of `L` itself, plus
the subtree of every branch whose edge is expanded. -/
def LoopVis (ora : VcsOracle) (cascade : Bool) (dag : Dag) (L : List Branch)
    (c : String) : Prop :=
  ∃ b ∈ L, c = stripName b.name ∨
    (edgeOkB ora cascade b = true ∧ SubVis dag (okP ora cascade) (stripName b.name) c)

/-- The names a cascade from `start` prints: `start` itself when it is a key,
plus everything reachable through expanded edges. -/
def PrintedOk (ora : VcsOracle) (cascade : Bool) (dag : Dag) (start c : String) :
    Prop :=
  (dag start).isSome = true ∧ (c = start ∨ SubVis dag (okP ora cascade) start c)

/-- Plain reachability from `start` in the dag, ignoring the oracle. -/
def ReachPrint (dag : Dag) (start c : String) : Prop :=
  (dag start).isSome = true ∧ (c = start ∨ SubVis dag (fun _ => True) start c)

/-- Digit-accumulating core of Python `int()` on a token: consumes decimal
digits, failing on any non-digit character. -/
def pyDigitsVal : List Char → Nat → Option Nat
  | [], acc => some acc
  | c :: rest, acc =>
    if c.isDigit then pyDigitsVal rest (acc * 10 + (c.toNat - 48))
    else none

/-- Embeds Python `int(token)` on a whitespace-free token (the source strips
each token first; tokens of `str.split()` carry no whitespace): an optional
sign followed by at least one decimal digit, anything else raises. -/
def pyInt (l : List Char) : Option Int :=
  match l with
  | [] => none
  | c :: rest =>
    if c = '-' then
      if rest = [] then none else (pyDigitsVal rest 0).map (fun n => -(n : Int))
    else if c = '+' then
      if rest = [] then none else (pyDigitsVal rest 0).map (fun n => (n : Int))
    else (pyDigitsVal (c :: rest) 0).map (fun n => (n : Int))

/-- Embeds Python `str.split()` (no argument): splits on runs of whitespace and
drops empty tokens.  `cur` is the reversed current token. -/
def pySplitAux : List Char → List Char → List (List Char)
  | cur, [] => if cur = [] then [] else [cur.reverse]
  | cur, c :: rest =>
    if c.isWhitespace then
      if cur = [] then pySplitAux [] rest else cur.reverse :: pySplitAux [] rest
    else pySplitAux (c :: cur) rest

/-- Embeds Python `delta_str.split()`. -/
def pySplit (l : List Char) : List (List Char) :=
  pySplitAux [] l

/-- Decimal digit characters of `n`, most significant first (fuel-structural so
terms reduce; `natToDec` supplies sufficient fuel). -/
def natToDecAux : Nat → Nat → List Char → List Char
  | 0, _, acc => acc
  | f + 1, n, acc =>
    let c := Char.ofNat (48 + n % 10)
    if n < 10 then c :: acc else natToDecAux f (n / 10) (c :: acc)

/-- Decimal representation of a natural number, as the external git prints
commit counts. -/
def natToDec (n : Nat) : List Char :=
  natToDecAux (n + 1) n []

/-- Model of the commit graph the divergence calculator queries: each ref name
resolves to the set of commits reachable from it, or to nothing when the ref
does not exist; `cmdError` models any other VCS failure of the command. -/
structure GitRepoModel where
  refs : String → Option (Finset Nat)
  cmdError : Bool

/-- Models the external command `git rev-list --count --left-right a...b`: on
success git prints the count of commits reachable only from `a`, a tab, and the
count of commits reachable only from `b`; a missing ref or any VCS error
raises `GitCommandError` through `repo.git.execute`. -/
def revListCountLeftRight (r : GitRepoModel) (a b : String) :
    Except Unit (List Char) :=
  if r.cmdError then Except.error () else
  match r.refs a, r.refs b with
  | some A, some B =>
    Except.ok (natToDec (A \ B).card ++ '\t' :: natToDec (B \ A).card)
  | _, _ => Except.error ()

/-- Embeds the body of `commit_delta_by_branch_name` on the raw outcome of
`repo.git.execute(cmd)`: any command failure, parse failure, or token count
other than two yields `(None, None)`; the function is total — it never raises. -/
def commitDeltaParse (execResult : Except Unit (List Char)) :
    Option Int × Option Int :=
  match execResult with
  | Except.error _ => (none, none)
  | Except.ok out =>
    match (pySplit out).mapM pyInt with
    | some [a, b] => (some a, some b)
    | _ => (none, none)

/-- Embeds `commit_delta_by_branch_name(cur_branch_name, parent_branch_name,
repo)` against the commit-graph model. -/
def commit_delta_by_branch_name (curBranchName parentBranchName : String)
    (repo : GitRepoModel) : Option Int × Option Int :=
  commitDeltaParse (revListCountLeftRight repo curBranchName parentBranchName)

/-- Repository state the orchestrator reads: the local branches in enumeration
order, and the active branch's raw name (`none` models a detached HEAD, where
`repo.active_branch` raises `TypeError` and `active_branch_from_repo` returns
`None`). -/
structure Repo where
  branches : List Branch
  activeBranch : Option String

/-- Parsed command-line arguments of `main`. -/
structure Args where
  cascade : Bool
  branch : Option String
  refresh : Bool
  color : Bool
  push : Bool

/-- The ways `main` terminates with an uncaught exception (a non-zero exit). -/
inductive MainErr where
  | noRepoContext
  | startCheckoutFailed (b : String)
  | refreshAssertFailure
  | renderAssertFailure
  | finalCheckoutFailed
deriving DecidableEq, Repr

/-- Python truthiness of an optional string (`if not args.branch`). -/
def optTruthy : Option String → Bool
  | none => false
  | some s => !(s == "")

/-- Embeds `checkout(branch_name, repo)` with the default `fail=True`: on a git
failure the exception is re-raised to the caller. -/
def checkoutFn (ora : VcsOracle) (b : String) : Except Unit (List Event) :=
  if ora.checkoutFails b then Except.error ()
  else Except.ok [Event.checkoutCall b]

/-- Embeds `refresh_branch(branch, repo)`: every git failure is caught and
logged.  Called with `None` (detached HEAD and no `--branch`), the
`assert` inside `branch_name` fires; the handler then evaluates
`branch_name(branch)` again while formatting its message, so the
`AssertionError` escapes — modelled as `error`. -/
def refresh_branch (ora : VcsOracle) (b : Option String) :
    Except Unit (List Event) :=
  match b with
  | none => Except.error ()
  | some name =>
    Except.ok (if ora.refreshFails name then
        [Event.refreshCall name, Event.refreshFailLog name]
      else [Event.refreshCall name])

/-- The start branch `main` resolves: `--branch` when truthy, otherwise the
active branch's (stripped) name. -/
def resolvedStartBranch (repo : Repo) (args : Args) : Option String :=
  if optTruthy args.branch then args.branch
  else repo.activeBranch.map stripName

/-- Events of `repo.git.checkout(initial_active_branch)` after a cascade: with
a branch, a plain checkout of its raw name; with `None`, GitPython drops the
argument and a no-op `git checkout` runs. -/
def finalCheckoutEvs : Option String → List Event
  | none => [Event.checkoutNoTarget]
  | some raw => [Event.checkoutCall raw]

/-- The active branch at the post-cascade render: the original branch after
`repo.git.checkout(initial_active_branch)` restores it; on a detached start
that call is a no-op, leaving HEAD wherever the cascade attached it (the
resolved start branch, or still detached when none resolved). -/
def postCascadeActive (repo : Repo) (args : Args) : Option String :=
  match repo.activeBranch with
  | some raw => some raw
  | none => resolvedStartBranch repo args

/-- Embeds lines 448-450 of `main`: when the resolved start branch differs
from the active branch name, check it out through `checkout(...)`, whose
default `fail=True` re-raises any git failure. -/
def checkoutPhase (ora : VcsOracle) (argsBranch activeBranchName : Option String) :
    Except MainErr (List Event) :=
  if argsBranch ≠ activeBranchName then
    match argsBranch with
    | some s => (checkoutFn ora s).mapError (fun _ => MainErr.startCheckoutFailed s)
    | none => Except.ok [Event.checkoutNoTarget]
  else Except.ok []

/-- Embeds lines 452-453 of `main`: refresh the resolved branch when
`--refresh` was passed. -/
def refreshPhase (ora : VcsOracle) (doRefresh : Bool) (argsBranch : Option String) :
    Except MainErr (List Event) :=
  if doRefresh then
    (refresh_branch ora argsBranch).mapError (fun _ => MainErr.refreshAssertFailure)
  else Except.ok []

/-- Embeds line 461 of `main`: `repo.git.checkout(initial_active_branch)`, a
direct call whose failure is uncaught. -/
def finalCheckoutPhase (ora : VcsOracle) (activeBranch : Option String) :
    Except MainErr (List Event) :=
  match activeBranch with
  | none => Except.ok (finalCheckoutEvs none)
  | some raw =>
    if ora.checkoutFails raw then Except.error MainErr.finalCheckoutFailed
    else Except.ok (finalCheckoutEvs (some raw))

/-- Embeds `main(argv)` after argument parsing.  `ctxOk` is whether a
repository context was located (`find_git_dir` plus the `.git` existence
check); `fuel` bounds the tree recursion.  The result is `none` when the walk
diverges, `some (error e)` when an uncaught exception terminates the process
with a non-zero exit, and `some (ok trace)` on a zero exit with the emitted
event trace. -/
def mainModel (ctxOk : Bool) (repo : Repo) (ora : VcsOracle) (args : Args)
    (fuel : Nat) : Option (Except MainErr (List Event)) :=
  if ctxOk = false then some (Except.error MainErr.noRepoContext) else
  let dag := (buildGitDag repo.branches).1
  let activeBranchName : Option String := repo.activeBranch.map stripName
  let argsBranch : Option String :=
    if optTruthy args.branch then args.branch else activeBranchName
  let roots : List (Option String) :=
    if optTruthy args.branch then [args.branch]
    else (buildGitDag repo.branches).2.map some
  match checkoutPhase ora argsBranch activeBranchName with
  | Except.error e => some (Except.error e)
  | Except.ok evs1 =>
    match refreshPhase ora args.refresh argsBranch with
    | Except.error e => some (Except.error e)
    | Except.ok evs2 =>
      let rootsFinal : List (Option String) :=
        if args.cascade then [argsBranch] else roots
      match print_dag ora dag args.cascade args.push argsBranch fuel rootsFinal with
      | Except.error WalkErr.fuelOut => none
      | Except.error WalkErr.assertErr =>
        some (Except.error MainErr.renderAssertFailure)
      | Except.ok evs3 =>
        if args.cascade then
          match finalCheckoutPhase ora repo.activeBranch with
          | Except.error e => some (Except.error e)
          | Except.ok evs4 =>
            match print_dag ora dag false false
                (match repo.activeBranch with
                 | some raw => some raw
                 | none => argsBranch) fuel rootsFinal with
            | Except.error WalkErr.fuelOut => none
            | Except.error WalkErr.assertErr =>
              some (Except.error MainErr.renderAssertFailure)
            | Except.ok evs5 =>
              some (Except.ok (evs1 ++ evs2 ++ evs3 ++ evs4 ++ evs5))
        else some (Except.ok (evs1 ++ evs2 ++ evs3))

/-- Oracle on which every VCS primitive succeeds. -/
def oraOk : VcsOracle :=
  ⟨fun _ _ => false, fun _ => false, false, fun _ => false, fun _ => false⟩

/-- Oracle on which every rebase conflicts. -/
def oraRebaseFailAll : VcsOracle :=
  { oraOk with rebaseFails := fun _ _ => true }

/-- Oracle on which every push is rejected. -/
def oraPushFailAll : VcsOracle :=
  { oraOk with pushFails := fun _ => true }

/-- Oracle on which checking out the branch `feature` fails. -/
def oraCkFail : VcsOracle :=
  { oraOk with checkoutFails := fun s => s == "feature" }

/-- The empty dependency dict. -/
def emptyDag : Dag := fun _ => none

/-- Example branch tracking `main`. -/
def brFeat : Branch := ⟨"feat", some "main"⟩

/-- Example branch `A` tracking `master`. -/
def brChainA : Branch := ⟨"A", some "master"⟩

/-- Example dag `master → A`. -/
def chainDag : Dag :=
  fun x => if x = "master" then some [brChainA]
    else if x = "A" then some [] else none

/-- Rank function witnessing acyclicity of `chainDag`. -/
def chainRank : String → Nat :=
  fun x => if x = "master" then 1 else 0

/-- Diamond example: branch `A` tracking `S`. -/
def brDiaA : Branch := ⟨"A", some "S"⟩

/-- Diamond example: branch `B` tracking `S`. -/
def brDiaB : Branch := ⟨"B", some "S"⟩

/-- Diamond example: branch `C` tracking `A`. -/
def brDiaC : Branch := ⟨"C", some "A"⟩

/-- A well-formed acyclic dag that is not forest-shaped: `C` is a child of both
`A` and `B`. -/
def diamondDag : Dag :=
  fun x => if x = "S" then some [brDiaA, brDiaB]
    else if x = "A" then some [brDiaC]
    else if x = "B" then some [brDiaC]
    else none

/-- Rank function witnessing acyclicity of `diamondDag`. -/
def diamondRank : String → Nat :=
  fun x => if x = "S" then 3 else if x = "A" then 2 else if x = "B" then 2 else 1

/-- Example repository with one local branch, `master` checked out. -/
def repoEx : Repo := ⟨[⟨"master", none⟩], some "master"⟩

/-- Example repository in a detached-HEAD state with a small tracking chain. -/
def repoDet : Repo := ⟨[⟨"master", none⟩, ⟨"A", some "master"⟩], none⟩

/-- Example arguments: `--branch feature`, nothing else. -/
def argsEx : Args := ⟨false, some "feature", false, true, false⟩

/-- Example arguments: `--cascade --branch master`. -/
def argsCas : Args := ⟨true, some "master", false, true, false⟩

/-- Trace of the example cascade run of `mainModel` on `repoDet`. -/
def mainTraceEx : List Event :=
  match mainModel true repoDet oraOk argsCas 5 with
  | some (Except.ok t) => t
  | _ => []

/-- Example commit-graph model: `a` and `b` share commit 1 and each has one own
commit. -/
def gitRepoEx : GitRepoModel :=
  ⟨fun s => if s = "a" then some {0, 1} else if s = "b" then some {1, 2} else none,
   false⟩

/-- Events the cascade step of one loop iteration emits when the edge is
expanded (rebase succeeds, optional push attempt): empty outside cascade
mode. -/
def stepEvs (ora : VcsOracle) (cascade push : Bool) (parent bname : String) :
    List Event :=
  if cascade then
    Event.rebaseAttempt parent bname ::
      (if push then force_push_no_verify ora bname else [])
  else []

/-- C6: rendering a branch name that is not a key of the dag returns `True`
immediately, prints nothing, and performs no VCS action — for any oracle,
flags, depth and active-branch state (the membership test precedes every
print, so even a detached HEAD cannot make this path assert). -/
theorem printTree_absent_key (ora : VcsOracle) (dag : Dag) (cascade push : Bool)
    (active : Option String) (fuel depth : Nat) (name : String)
    (hf : 1 ≤ fuel) (h : dag name = none) :
    printTree ora dag cascade push active fuel name depth = Except.ok ([], true) := by
  cases fuel with
  | zero => omega
  | succ f => simp [printTree, h]

/-- Witness for `printTree_absent_key` at a concrete absent key, on a detached
HEAD. -/
theorem printTree_absent_key_witness :
    (1 ≤ 1 ∧ emptyDag "ghost" = none) ∧
      printTree oraOk emptyDag true true none 1 "ghost" 7 = Except.ok ([], true) :=
  ⟨⟨by decide, rfl⟩, printTree_absent_key oraOk emptyDag true true none 1 7 "ghost"
    (by decide) rfl⟩

/-- C1: when the rebase of a child onto its tracking parent fails, the walk
prints the child's line, logs the failure, aborts the in-progress rebase (a
failed abort is itself logged, never fatal), emits no push for the child,
contributes no events from the child's own subtree, and continues with exactly
the walk of the remaining siblings — for every dag and every failing edge (a
cascade always runs with an attached HEAD `some a`). -/
theorem cascade_rebase_failure_isolated (ora : VcsOracle) (dag : Dag)
    (push : Bool) (a : String) (fuel depth : Nat) (b : Branch) (bs : List Branch)
    (t : String) (ht : b.tracking = some t)
    (hfail : ora.rebaseFails (stripName t) (stripName b.name) = true) :
    (printTreeLoop ora true push (some a)
        (fun c => printTree ora dag true push (some a) fuel c (depth + 1)) depth
        (b :: bs) =
      (printTreeLoop ora true push (some a)
          (fun c => printTree ora dag true push (some a) fuel c (depth + 1)) depth
          bs).map
        (fun p => (Event.printBranch (stripName b.name) depth (stripName t) ::
            (([Event.rebaseAttempt (stripName t) (stripName b.name),
               Event.rebaseFailLog (stripName b.name)] ++ abort_reabse ora) ++ p.1),
           p.2)))
    ∧ (abort_reabse ora = [Event.abortRebase] ∨
        abort_reabse ora = [Event.abortRebase, Event.abortFailLog])
    ∧ (∀ s, Event.pushAttempt s ∉
        Event.printBranch (stripName b.name) depth (stripName t) ::
          ([Event.rebaseAttempt (stripName t) (stripName b.name),
            Event.rebaseFailLog (stripName b.name)] ++ abort_reabse ora)) := by
  refine ⟨?_, ?_, ?_⟩
  · cases hrest : printTreeLoop ora true push (some a)
        (fun c => printTree ora dag true push (some a) fuel c (depth + 1)) depth
        bs with
    | error e => simp [printTreeLoop, ht, hfail, hrest, Except.map]
    | ok p =>
      cases p with
      | mk evs2 r2 => simp [printTreeLoop, ht, hfail, hrest, Except.map]
  · unfold abort_reabse
    cases ora.abortFails <;> simp
  · intro s
    unfold abort_reabse
    cases ora.abortFails <;> simp

/-- Witness for `cascade_rebase_failure_isolated` on a concrete failing edge. -/
theorem cascade_rebase_failure_isolated_witness :
    (brFeat.tracking = some "main" ∧
      oraRebaseFailAll.rebaseFails (stripName "main") (stripName brFeat.name) = true) ∧
    ((printTreeLoop oraRebaseFailAll true false (some "main")
        (fun c => printTree oraRebaseFailAll emptyDag true false (some "main") 1 c
          (1 + 1)) 1 (brFeat :: []) =
      (printTreeLoop oraRebaseFailAll true false (some "main")
          (fun c => printTree oraRebaseFailAll emptyDag true false (some "main") 1 c
            (1 + 1)) 1 []).map
        (fun p => (Event.printBranch (stripName brFeat.name) 1 (stripName "main") ::
            (([Event.rebaseAttempt (stripName "main") (stripName brFeat.name),
               Event.rebaseFailLog (stripName brFeat.name)] ++
              abort_reabse oraRebaseFailAll) ++ p.1),
           p.2)))
    ∧ (abort_reabse oraRebaseFailAll = [Event.abortRebase] ∨
        abort_reabse oraRebaseFailAll = [Event.abortRebase, Event.abortFailLog])
    ∧ (∀ s, Event.pushAttempt s ∉
        Event.printBranch (stripName brFeat.name) 1 (stripName "main") ::
          ([Event.rebaseAttempt (stripName "main") (stripName brFeat.name),
            Event.rebaseFailLog (stripName brFeat.name)] ++
            abort_reabse oraRebaseFailAll))) :=
  ⟨⟨rfl, rfl⟩, cascade_rebase_failure_isolated oraRebaseFailAll emptyDag false
    "main" 1 1 brFeat [] "main" rfl rfl⟩

/-- C5: when a child's rebase succeeds and its force-push fails, the push
failure is only logged (`force_push_no_verify` is total and never aborts), the
rebase is not rolled back (no abort event is emitted on this edge), and the
walk still recurses into the child's subtree and then continues with the
remaining siblings. -/
theorem cascade_push_failure_nonfatal (ora : VcsOracle) (dag : Dag)
    (a : String) (fuel depth : Nat) (b : Branch) (bs : List Branch) (t : String)
    (ht : b.tracking = some t)
    (hok : ora.rebaseFails (stripName t) (stripName b.name) = false)
    (hpf : ora.pushFails (stripName b.name) = true) :
    (force_push_no_verify ora (stripName b.name) =
      [Event.pushAttempt (stripName b.name), Event.pushFailLog (stripName b.name)])
    ∧ (printTreeLoop ora true true (some a)
        (fun c => printTree ora dag true true (some a) fuel c (depth + 1)) depth
        (b :: bs) =
      match printTree ora dag true true (some a) fuel (stripName b.name)
          (depth + 1) with
      | Except.error e => Except.error e
      | Except.ok (evs, r) =>
        if r then
          (printTreeLoop ora true true (some a)
              (fun c => printTree ora dag true true (some a) fuel c (depth + 1))
              depth bs).map
            (fun p => (Event.printBranch (stripName b.name) depth (stripName t) ::
                ([Event.rebaseAttempt (stripName t) (stripName b.name),
                  Event.pushAttempt (stripName b.name),
                  Event.pushFailLog (stripName b.name)] ++ (evs ++ p.1)), p.2))
        else
          Except.ok (Event.printBranch (stripName b.name) depth (stripName t) ::
            ([Event.rebaseAttempt (stripName t) (stripName b.name),
              Event.pushAttempt (stripName b.name),
              Event.pushFailLog (stripName b.name)] ++ evs), false))
    ∧ (Event.abortRebase ∉
        [Event.rebaseAttempt (stripName t) (stripName b.name),
         Event.pushAttempt (stripName b.name),
         Event.pushFailLog (stripName b.name)]) := by
  refine ⟨?_, ?_, by simp⟩
  · unfold force_push_no_verify
    simp [hpf]
  · cases hrec : printTree ora dag true true (some a) fuel (stripName b.name)
        (depth + 1) with
    | error e => simp [printTreeLoop, ht, hok, hpf, force_push_no_verify, hrec]
    | ok p =>
      cases p with
      | mk evs r =>
        cases r with
        | false => simp [printTreeLoop, ht, hok, hpf, force_push_no_verify, hrec]
        | true =>
          cases hrest : printTreeLoop ora true true (some a)
              (fun c => printTree ora dag true true (some a) fuel c (depth + 1))
              depth bs with
          | error e =>
            simp [printTreeLoop, ht, hok, hpf, force_push_no_verify, hrec, hrest,
              Except.map]
          | ok q =>
            cases q with
            | mk evs2 r2 =>
              simp [printTreeLoop, ht, hok, hpf, force_push_no_verify, hrec, hrest,
                Except.map]

/-- Witness for `cascade_push_failure_nonfatal` on a concrete rejected push. -/
theorem cascade_push_failure_nonfatal_witness :
    (brFeat.tracking = some "main" ∧
      oraPushFailAll.rebaseFails (stripName "main") (stripName brFeat.name) = false ∧
      oraPushFailAll.pushFails (stripName brFeat.name) = true) ∧
    ((force_push_no_verify oraPushFailAll (stripName brFeat.name) =
      [Event.pushAttempt (stripName brFeat.name),
       Event.pushFailLog (stripName brFeat.name)])
    ∧ (printTreeLoop oraPushFailAll true true (some "main")
        (fun c => printTree oraPushFailAll emptyDag true true (some "main") 1 c
          (1 + 1)) 1 (brFeat :: []) =
      match printTree oraPushFailAll emptyDag true true (some "main") 1
          (stripName brFeat.name) (1 + 1) with
      | Except.error e => Except.error e
      | Except.ok (evs, r) =>
        if r then
          (printTreeLoop oraPushFailAll true true (some "main")
              (fun c => printTree oraPushFailAll emptyDag true true (some "main") 1
                c (1 + 1)) 1 []).map
            (fun p => (Event.printBranch (stripName brFeat.name) 1 (stripName "main") ::
                ([Event.rebaseAttempt (stripName "main") (stripName brFeat.name),
                  Event.pushAttempt (stripName brFeat.name),
                  Event.pushFailLog (stripName brFeat.name)] ++ (evs ++ p.1)), p.2))
        else
          Except.ok (Event.printBranch (stripName brFeat.name) 1 (stripName "main") ::
            ([Event.rebaseAttempt (stripName "main") (stripName brFeat.name),
              Event.pushAttempt (stripName brFeat.name),
              Event.pushFailLog (stripName brFeat.name)] ++ evs), false))
    ∧ (Event.abortRebase ∉
        [Event.rebaseAttempt (stripName "main") (stripName brFeat.name),
         Event.pushAttempt (stripName brFeat.name),
         Event.pushFailLog (stripName brFeat.name)])) :=
  ⟨⟨rfl, rfl, rfl⟩, cascade_push_failure_nonfatal oraPushFailAll emptyDag "main"
    1 1 brFeat [] "main" rfl rfl rfl⟩

/-- Setting a default for one key never changes any child list. -/
theorem childListF_setdefault (d : Dag) (k' k : String) :
    childListF (dagSetdefault d k') k = childListF d k := by
  unfold childListF dagSetdefault
  by_cases h : k = k' <;> simp [h]

/-- Appending a child to key `k'` extends exactly that child list. -/
theorem childListF_appendChild (d : Dag) (k' k : String) (b : Branch) :
    childListF (dagAppendChild d k' b) k =
      if k = k' then childListF d k ++ [b] else childListF d k := by
  unfold childListF dagAppendChild
  by_cases h : k = k' <;> simp [h]

/-- Key presence is preserved by `dagSetdefault`. -/
theorem isSome_setdefault (d : Dag) (k' k : String)
    (h : (d k).isSome = true) : ((dagSetdefault d k') k).isSome = true := by
  unfold dagSetdefault
  by_cases hk : k = k' <;> simp [hk, h]

/-- Key presence is preserved by `dagAppendChild`, which also creates its key. -/
theorem isSome_appendChild (d : Dag) (k' k : String) (b : Branch)
    (h : (d k).isSome = true ∨ k = k') :
    ((dagAppendChild d k' b) k).isSome = true := by
  unfold dagAppendChild
  by_cases hk : k = k' <;> simp [hk] at h ⊢
  exact h

/-- The roots accumulated by `build_git_dag`'s loop are the initial roots
followed by each branch's contribution, in enumeration order. -/
theorem buildGitDagAux_roots_eq :
    ∀ (bs : List Branch) (d : Dag) (r : List String),
      (buildGitDagAux bs d r).2 = r ++ rootsContrib bs := by
  intro bs
  induction bs with
  | nil => intro d r; simp [buildGitDagAux, rootsContrib]
  | cons b bs ih =>
    intro d r
    cases hb : b.tracking with
    | none =>
      simp only [buildGitDagAux, hb, ih, rootsContrib, List.flatMap_cons,
        rootContrib]
      simp [hb]
    | some t =>
      by_cases hst : pyStartsWith (stripName t) "origin" <;>
        simp [buildGitDagAux, hb, ih, rootsContrib, rootContrib, hst]

/-- The child list of any key after `build_git_dag`'s loop is the initial list
followed by the branches tracking that key, in enumeration order. -/
theorem buildGitDagAux_childList_eq :
    ∀ (bs : List Branch) (d : Dag) (r : List String) (k : String),
      childListF ((buildGitDagAux bs d r).1) k =
        childListF d k ++ childrenContrib k bs := by
  intro bs
  induction bs with
  | nil => intro d r k; simp [buildGitDagAux, childrenContrib]
  | cons b bs ih =>
    intro d r k
    cases hb : b.tracking with
    | none =>
      simp only [buildGitDagAux, hb, ih, childListF_setdefault]
      simp [childrenContrib, hb]
    | some t =>
      simp only [buildGitDagAux, hb, ih, childListF_appendChild,
        childListF_setdefault]
      by_cases hk : k = stripName t
      · subst hk
        simp [childrenContrib, hb]
      · have hne : (stripName t == k) = false := by
          simp [beq_iff_eq]
          exact fun h => hk h.symm
        simp [hk, childrenContrib, hb, hne]

/-- Key presence is preserved by `build_git_dag`'s loop. -/
theorem buildGitDagAux_isSome_mono :
    ∀ (bs : List Branch) (d : Dag) (r : List String) (k : String),
      (d k).isSome = true → (((buildGitDagAux bs d r).1) k).isSome = true := by
  intro bs
  induction bs with
  | nil => intro d r k h; simpa [buildGitDagAux] using h
  | cons b bs ih =>
    intro d r k h
    cases hb : b.tracking with
    | none =>
      simp only [buildGitDagAux, hb]
      exact ih _ _ _ (isSome_setdefault _ _ _ h)
    | some t =>
      simp only [buildGitDagAux, hb]
      exact ih _ _ _ (isSome_appendChild _ _ _ _ (Or.inl (isSome_setdefault _ _ _ h)))

/-- Every tracking-branch key referenced in the enumeration is present after
`build_git_dag`'s loop. -/
theorem buildGitDagAux_isSome_tracked :
    ∀ (bs : List Branch) (d : Dag) (r : List String) (b : Branch) (t : String),
      b ∈ bs → b.tracking = some t →
      (((buildGitDagAux bs d r).1) (stripName t)).isSome = true := by
  intro bs
  induction bs with
  | nil => intro d r b t h; simp at h
  | cons b0 bs ih =>
    intro d r b t hmem ht
    rcases List.mem_cons.mp hmem with rfl | hmem
    · simp only [buildGitDagAux, ht]
      exact buildGitDagAux_isSome_mono _ _ _ _
        (isSome_appendChild _ _ _ _ (Or.inr rfl))
    · cases hb0 : b0.tracking with
      | none => simp only [buildGitDagAux, hb0]; exact ih _ _ _ _ hmem ht
      | some t0 => simp only [buildGitDagAux, hb0]; exact ih _ _ _ _ hmem ht

/-- C2: `build_git_dag` puts every untracked local branch into the roots,
appends every tracked local branch exactly once to the child list keyed by its
tracking branch's stripped name (creating that key if absent), and adds the
tracking name to the roots whenever it begins with the remote prefix
`origin`. -/
theorem build_git_dag_correct (branches : List Branch) (hnd : branches.Nodup) :
    (∀ b ∈ branches, b.tracking = none →
      stripName b.name ∈ (buildGitDag branches).2)
    ∧ (∀ b ∈ branches, ∀ t, b.tracking = some t →
      (((buildGitDag branches).1) (stripName t)).isSome = true ∧
        (childListF ((buildGitDag branches).1) (stripName t)).count b = 1)
    ∧ (∀ b ∈ branches, ∀ t, b.tracking = some t →
      pyStartsWith (stripName t) "origin" = true →
      stripName t ∈ (buildGitDag branches).2) := by
  have hroots : (buildGitDag branches).2 = rootsContrib branches := by
    unfold buildGitDag
    rw [buildGitDagAux_roots_eq]
    simp
  have hchild : ∀ k, childListF ((buildGitDag branches).1) k =
      childrenContrib k branches := by
    intro k
    unfold buildGitDag
    rw [buildGitDagAux_childList_eq]
    simp [childListF]
  refine ⟨?_, ?_, ?_⟩
  · intro b hb ht
    rw [hroots]
    unfold rootsContrib
    exact List.mem_flatMap.mpr ⟨b, hb, by simp [rootContrib, ht]⟩
  · intro b hb t ht
    constructor
    · exact buildGitDagAux_isSome_tracked _ _ _ _ _ hb ht
    · rw [hchild]
      unfold childrenContrib
      rw [List.count_filter (p := fun b2 : Branch =>
        match b2.tracking with
        | some t' => stripName t' == stripName t
        | none => false) (by simp [ht])]
      exact List.count_eq_one_of_mem hnd hb
  · intro b hb t ht hst
    rw [hroots]
    unfold rootsContrib
    exact List.mem_flatMap.mpr ⟨b, hb, by simp [rootContrib, ht, hst]⟩

/-- Witness for `build_git_dag_correct` on a concrete three-branch repository. -/
theorem build_git_dag_correct_witness :
    ([⟨"master", none⟩, brChainA, ⟨"B", some "origin/x"⟩] : List Branch).Nodup ∧
    ((∀ b ∈ ([⟨"master", none⟩, brChainA, ⟨"B", some "origin/x"⟩] : List Branch),
        b.tracking = none →
        stripName b.name ∈
          (buildGitDag [⟨"master", none⟩, brChainA, ⟨"B", some "origin/x"⟩]).2)
    ∧ (∀ b ∈ ([⟨"master", none⟩, brChainA, ⟨"B", some "origin/x"⟩] : List Branch),
        ∀ t, b.tracking = some t →
        (((buildGitDag [⟨"master", none⟩, brChainA, ⟨"B", some "origin/x"⟩]).1)
            (stripName t)).isSome = true ∧
          (childListF ((buildGitDag
              [⟨"master", none⟩, brChainA, ⟨"B", some "origin/x"⟩]).1)
            (stripName t)).count b = 1)
    ∧ (∀ b ∈ ([⟨"master", none⟩, brChainA, ⟨"B", some "origin/x"⟩] : List Branch),
        ∀ t, b.tracking = some t → pyStartsWith (stripName t) "origin" = true →
        stripName t ∈
          (buildGitDag [⟨"master", none⟩, brChainA, ⟨"B", some "origin/x"⟩]).2)) :=
  ⟨by decide, build_git_dag_correct _ (by decide)⟩

/-- Characters produced for a decimal digit are digits and not whitespace. -/
theorem charDigit_props (m : Nat) (h : m < 10) :
    (Char.ofNat (48 + m)).isDigit = true ∧ (Char.ofNat (48 + m)).toNat = 48 + m ∧
      (Char.ofNat (48 + m)).isWhitespace = false := by
  interval_cases m <;> exact ⟨by decide, by decide, by decide⟩

/-- On an all-digit token the digit parser folds up the decimal value. -/
theorem pyDigitsVal_eq_foldl :
    ∀ (l : List Char) (acc : Nat), (∀ c ∈ l, c.isDigit = true) →
      pyDigitsVal l acc =
        some (l.foldl (fun a c => a * 10 + (c.toNat - 48)) acc) := by
  intro l
  induction l with
  | nil => intro acc _; simp [pyDigitsVal]
  | cons c rest ih =>
    intro acc h
    have hc : c.isDigit = true := h c (by simp)
    simp only [pyDigitsVal, hc, if_true, List.foldl_cons]
    exact ih _ (fun c2 hc2 => h c2 (by simp [hc2]))

/-- Core correctness of the decimal printer: with sufficient fuel it prepends a
nonempty all-digit representation of `n` whose fold value is `n`. -/
theorem natToDecAux_spec :
    ∀ (f n : Nat) (acc : List Char), 0 < f → n < 10 ^ f →
      ∃ ds, natToDecAux f n acc = ds ++ acc ∧ ds ≠ [] ∧
        (∀ c ∈ ds, c.isDigit = true ∧ c.isWhitespace = false) ∧
        ∀ a, ds.foldl (fun x c => x * 10 + (c.toNat - 48)) a =
          a * 10 ^ ds.length + n := by
  intro f
  induction f with
  | zero => intro n acc hf hn; omega
  | succ f ih =>
    intro n acc _ hn
    by_cases hsmall : n < 10
    · refine ⟨[Char.ofNat (48 + n % 10)], ?_, by simp, ?_, ?_⟩
      · simp [natToDecAux, hsmall]
      · intro c hc
        simp at hc
        subst hc
        have := charDigit_props (n % 10) (Nat.mod_lt _ (by omega))
        exact ⟨this.1, this.2.2⟩
      · intro a
        have hmod : n % 10 = n := Nat.mod_eq_of_lt hsmall
        rw [hmod]
        simp only [List.foldl_cons, List.foldl_nil,
          (charDigit_props n hsmall).2.1, List.length_singleton]
        simp [pow_succ]
    · have hdiv : n / 10 < 10 ^ f := by
        have h10 : (10 : Nat) ^ (f + 1) = 10 ^ f * 10 := by ring
        rw [h10] at hn
        exact Nat.div_lt_of_lt_mul (by omega)
      have hfpos : 0 < f := by
        by_contra hf0
        have : f = 0 := by omega
        subst this
        simp at hn
        omega
      obtain ⟨ds, hds, hne, hdig, hval⟩ :=
        ih (n / 10) (Char.ofNat (48 + n % 10) :: acc) hfpos hdiv
      refine ⟨ds ++ [Char.ofNat (48 + n % 10)], ?_, by simp, ?_, ?_⟩
      · simp only [natToDecAux, hsmall, if_false]
        rw [hds]
        simp
      · intro c hc
        rcases List.mem_append.mp hc with hc | hc
        · exact hdig c hc
        · simp at hc
          subst hc
          have := charDigit_props (n % 10) (Nat.mod_lt _ (by omega))
          exact ⟨this.1, this.2.2⟩
      · intro a
        rw [List.foldl_append]
        simp only [List.foldl_cons, List.foldl_nil]
        rw [hval a, (charDigit_props (n % 10) (Nat.mod_lt _ (by omega))).2.1]
        have hdm : n / 10 * 10 + n % 10 = n := by omega
        have hlen : (ds ++ [Char.ofNat (48 + n % 10)]).length = ds.length + 1 := by
          simp
        rw [hlen]
        calc (a * 10 ^ ds.length + n / 10) * 10 + (48 + n % 10 - 48)
            = (a * 10 ^ ds.length + n / 10) * 10 + n % 10 := by omega
          _ = a * (10 ^ ds.length * 10) + (n / 10 * 10 + n % 10) := by ring
          _ = a * 10 ^ (ds.length + 1) + n := by rw [hdm, pow_succ]

/-- The decimal printer emits a nonempty all-digit, whitespace-free token whose
digit-parse value is `n`. -/
theorem natToDec_spec (n : Nat) :
    natToDec n ≠ [] ∧ (∀ c ∈ natToDec n, c.isDigit = true ∧ c.isWhitespace = false) ∧
      pyDigitsVal (natToDec n) 0 = some n := by
  have hbound : n < 10 ^ (n + 1) := by
    calc n < 2 ^ n := Nat.lt_two_pow n
      _ ≤ 10 ^ n := Nat.pow_le_pow_left (by omega) n
      _ ≤ 10 ^ (n + 1) := Nat.pow_le_pow_right (by omega) (by omega)
  obtain ⟨ds, hds, hne, hdig, hval⟩ := natToDecAux_spec (n + 1) n [] (by omega) hbound
  have hdec : natToDec n = ds := by
    unfold natToDec
    rw [hds]
    simp
  refine ⟨by rw [hdec]; exact hne, by rw [hdec]; exact fun c hc => hdig c hc, ?_⟩
  rw [hdec, pyDigitsVal_eq_foldl ds 0 (fun c hc => (hdig c hc).1), hval 0]
  simp

/-- Python `int()` on a nonempty all-digit token parses its decimal value. -/
theorem pyInt_digits (l : List Char) (hne : l ≠ [])
    (hd : ∀ c ∈ l, c.isDigit = true) :
    pyInt l = (pyDigitsVal l 0).map (fun n => (n : Int)) := by
  cases l with
  | nil => simp at hne
  | cons c rest =>
    have hc : c.isDigit = true := hd c (by simp)
    have h1 : ¬(c = '-') := by
      intro h
      rw [h] at hc
      exact absurd hc (by decide)
    have h2 : ¬(c = '+') := by
      intro h
      rw [h] at hc
      exact absurd hc (by decide)
    simp [pyInt, h1, h2]

/-- Splitting skips over a leading non-whitespace block, accumulating it. -/
theorem pySplitAux_nonws :
    ∀ (A cur rest : List Char), (∀ c ∈ A, c.isWhitespace = false) →
      pySplitAux cur (A ++ rest) = pySplitAux (A.reverse ++ cur) rest := by
  intro A
  induction A with
  | nil => intro cur rest _; simp
  | cons a A ih =>
    intro cur rest h
    have ha : a.isWhitespace = false := h a (by simp)
    simp only [List.cons_append, pySplitAux, ha, Bool.false_eq_true, if_false,
      List.append_eq]
    rw [ih (a :: cur) rest (fun c hc => h c (by simp [hc]))]
    simp

/-- Splitting at a tab flushes the accumulated token. -/
theorem pySplitAux_tab (cur B : List Char) (hcur : cur ≠ []) :
    pySplitAux cur ('\t' :: B) = cur.reverse :: pySplitAux [] B := by
  simp [pySplitAux, hcur]

/-- Splitting a tab-separated pair of nonempty non-whitespace tokens yields
exactly those two tokens. -/
theorem pySplit_two_tokens (A B : List Char) (hA : A ≠ []) (hB : B ≠ [])
    (hAn : ∀ c ∈ A, c.isWhitespace = false)
    (hBn : ∀ c ∈ B, c.isWhitespace = false) :
    pySplit (A ++ '\t' :: B) = [A, B] := by
  unfold pySplit
  rw [pySplitAux_nonws A [] ('\t' :: B) hAn]
  rw [pySplitAux_tab _ _ (by simp [hA])]
  have h2 : pySplitAux ([] : List Char) B = [B] := by
    have hx := pySplitAux_nonws B [] [] hBn
    simp only [List.append_nil] at hx
    rw [hx]
    simp [pySplitAux, hB]
  rw [h2]
  simp

/-- C4: the divergence calculator returns the pair of symmetric-difference
commit counts (commits reachable from the first ref only, then from the second
ref only) on success, and `(None, None)` whenever the underlying command fails
— missing refs, any VCS error, or unparseable output; it is a total function
and never raises. -/
theorem commit_delta_spec (r : GitRepoModel) (a b : String) :
    (∀ A B, r.cmdError = false → r.refs a = some A → r.refs b = some B →
      commit_delta_by_branch_name a b r =
        (some ((A \ B).card : Int), some ((B \ A).card : Int)))
    ∧ ((r.refs a = none ∨ r.refs b = none) →
        commit_delta_by_branch_name a b r = (none, none))
    ∧ (r.cmdError = true → commit_delta_by_branch_name a b r = (none, none))
    ∧ (∀ e : Except Unit (List Char), (∃ u, e = Except.error u) →
        commitDeltaParse e = (none, none)) := by
  refine ⟨?_, ?_, ?_, ?_⟩
  · intro A B hce ha hb
    unfold commit_delta_by_branch_name revListCountLeftRight
    rw [hce, ha, hb]
    simp only [Bool.false_eq_true, if_false]
    unfold commitDeltaParse
    dsimp only
    obtain ⟨hne1, hdw1, hval1⟩ := natToDec_spec (A \ B).card
    obtain ⟨hne2, hdw2, hval2⟩ := natToDec_spec (B \ A).card
    rw [pySplit_two_tokens _ _ hne1 hne2 (fun c hc => (hdw1 c hc).2)
      (fun c hc => (hdw2 c hc).2)]
    rw [List.mapM_cons, List.mapM_cons, List.mapM_nil]
    rw [pyInt_digits _ hne1 (fun c hc => (hdw1 c hc).1),
      pyInt_digits _ hne2 (fun c hc => (hdw2 c hc).1)]
    rw [hval1, hval2]
    simp
  · intro h
    unfold commit_delta_by_branch_name revListCountLeftRight
    cases hce : r.cmdError with
    | true => simp [commitDeltaParse]
    | false =>
      rcases h with h | h <;> rw [h] <;> simp [commitDeltaParse]
  · intro h
    unfold commit_delta_by_branch_name revListCountLeftRight
    rw [h]
    simp [commitDeltaParse]
  · intro e ⟨u, he⟩
    rw [he]
    simp [commitDeltaParse]

/-- Witness for `commit_delta_spec` on a concrete two-ref commit graph. -/
theorem commit_delta_spec_witness :
    (gitRepoEx.cmdError = false ∧ gitRepoEx.refs "a" = some {0, 1} ∧
      gitRepoEx.refs "b" = some {1, 2}) ∧
    commit_delta_by_branch_name "a" "b" gitRepoEx =
      (some (((({0, 1} : Finset ℕ) \ {1, 2}).card : Nat) : Int),
       some (((({1, 2} : Finset ℕ) \ {0, 1}).card : Nat) : Int)) :=
  ⟨⟨rfl, by decide, by decide⟩,
    (commit_delta_spec gitRepoEx "a" "b").1 {0, 1} {1, 2} rfl (by decide) (by decide)⟩


/-- Unfolding lemma: a loop iteration whose child has no tracking branch
crashes (the `assert` inside `branch_name`). -/
theorem printTreeLoop_cons_untracked (ora : VcsOracle) (cascade push : Bool)
    (active : Option String)
    (recurse : String → Except WalkErr (List Event × Bool)) (depth : Nat)
    (b : Branch) (bs : List Branch) (htb : b.tracking = none) :
    printTreeLoop ora cascade push active recurse depth (b :: bs) =
      Except.error WalkErr.assertErr := by
  simp [printTreeLoop, htb]

/-- Unfolding lemma: a cascade loop iteration whose rebase fails logs, aborts,
skips push and recursion, and continues with the siblings. -/
theorem printTreeLoop_cons_fail (ora : VcsOracle) (push : Bool) (a : String)
    (recurse : String → Except WalkErr (List Event × Bool)) (depth : Nat)
    (b : Branch) (bs : List Branch) (tb : String) (htb : b.tracking = some tb)
    (hrf : ora.rebaseFails (stripName tb) (stripName b.name) = true) :
    printTreeLoop ora true push (some a) recurse depth (b :: bs) =
      (printTreeLoop ora true push (some a) recurse depth bs).map
        (fun p => (Event.printBranch (stripName b.name) depth (stripName tb) ::
            (([Event.rebaseAttempt (stripName tb) (stripName b.name),
               Event.rebaseFailLog (stripName b.name)] ++ abort_reabse ora) ++ p.1),
          p.2)) := by
  cases hrest : printTreeLoop ora true push (some a) recurse depth bs with
  | error e => simp [printTreeLoop, htb, hrf, hrest, Except.map]
  | ok p =>
    cases p with
    | mk evs2 r2 => simp [printTreeLoop, htb, hrf, hrest, Except.map]

/-- Unfolding lemma: a loop iteration whose edge is expanded (outside cascade
mode, or with a successful rebase) prints the child, emits the step events,
recurses into the child and, when that subtree walk returns `True`, continues
with the siblings. -/
theorem printTreeLoop_cons_ok (ora : VcsOracle) (cascade push : Bool) (a : String)
    (recurse : String → Except WalkErr (List Event × Bool)) (depth : Nat)
    (b : Branch) (bs : List Branch) (tb : String) (htb : b.tracking = some tb)
    (hok : cascade = true → ora.rebaseFails (stripName tb) (stripName b.name) = false) :
    printTreeLoop ora cascade push (some a) recurse depth (b :: bs) =
      match recurse (stripName b.name) with
      | Except.error e => Except.error e
      | Except.ok (evs, r) =>
        if r then
          (printTreeLoop ora cascade push (some a) recurse depth bs).map
            (fun p => (Event.printBranch (stripName b.name) depth (stripName tb) ::
                (stepEvs ora cascade push (stripName tb) (stripName b.name) ++
                  (evs ++ p.1)), p.2))
        else
          Except.ok (Event.printBranch (stripName b.name) depth (stripName tb) ::
            (stepEvs ora cascade push (stripName tb) (stripName b.name) ++ evs),
            false) := by
  by_cases hcas : cascade = true
  · subst hcas
    have hrf : ora.rebaseFails (stripName tb) (stripName b.name) = false := hok rfl
    cases hrec : recurse (stripName b.name) with
    | error e => simp [printTreeLoop, htb, hrec, stepEvs, hrf]
    | ok p =>
      cases p with
      | mk evs r =>
        cases r with
        | false => simp [printTreeLoop, htb, hrec, stepEvs, hrf]
        | true =>
          cases hrest : printTreeLoop ora true push (some a) recurse depth bs with
          | error e =>
            simp [printTreeLoop, htb, hrec, hrest, stepEvs, hrf, Except.map]
          | ok q =>
            cases q with
            | mk evs2 r2 =>
              simp [printTreeLoop, htb, hrec, hrest, stepEvs, hrf, Except.map]
  · have hcf : cascade = false := by revert hcas; cases cascade <;> simp
    subst hcf
    cases hrec : recurse (stripName b.name) with
    | error e => simp [printTreeLoop, htb, hrec, stepEvs]
    | ok p =>
      cases p with
      | mk evs r =>
        cases r with
        | false => simp [printTreeLoop, htb, hrec, stepEvs]
        | true =>
          cases hrest : printTreeLoop ora false push (some a) recurse depth bs with
          | error e => simp [printTreeLoop, htb, hrec, hrest, stepEvs, Except.map]
          | ok q =>
            cases q with
            | mk evs2 r2 =>
              simp [printTreeLoop, htb, hrec, hrest, stepEvs, Except.map]

/-- If every recursive call of a child loop returns `True`, so does the loop:
a `False` result can only bubble up from a recursive call. -/
theorem printTreeLoop_result_true (ora : VcsOracle) (cascade push : Bool)
    (active : Option String)
    (recurse : String → Except WalkErr (List Event × Bool)) (depth : Nat)
    (hrec : ∀ c evs r, recurse c = Except.ok (evs, r) → r = true) :
    ∀ L evs r,
      printTreeLoop ora cascade push active recurse depth L = Except.ok (evs, r) →
      r = true := by
  intro L
  induction L with
  | nil =>
    intro evs r h
    simp [printTreeLoop] at h
    exact h.2
  | cons b bs ih =>
    intro evs r h
    have hact : ∃ a, active = some a := by
      cases active with
      | none => cases htb0 : b.tracking <;> simp [printTreeLoop, htb0] at h
      | some a => exact ⟨a, rfl⟩
    obtain ⟨a, rfl⟩ := hact
    cases htb : b.tracking with
    | none =>
      rw [printTreeLoop_cons_untracked ora cascade push (some a) recurse
        depth b bs htb] at h
      exact absurd h (by simp)
    | some tb =>
      by_cases hedge : cascade = true → ora.rebaseFails (stripName tb) (stripName b.name) = false
      · rw [printTreeLoop_cons_ok ora cascade push a recurse depth b bs tb htb hedge] at h
        cases hr : recurse (stripName b.name) with
        | error e => rw [hr] at h; simp at h
        | ok p =>
          rw [hr] at h
          cases p with
          | mk evs0 r0 =>
            have hr0 : r0 = true := hrec _ _ _ hr
            subst hr0
            simp only [if_true] at h
            cases hrest : printTreeLoop ora cascade push (some a) recurse depth bs with
            | error e => rw [hrest] at h; simp [Except.map] at h
            | ok q =>
              rw [hrest] at h
              cases q with
              | mk evs2 r2 =>
                simp [Except.map] at h
                rw [← h.2]
                exact ih _ _ hrest
      · have hcas : cascade = true := by
          by_contra hc
          exact hedge (fun hx => absurd hx hc)
        have hrf : ora.rebaseFails (stripName tb) (stripName b.name) = true := by
          by_contra hc
          exact hedge (fun _ => by revert hc; cases ora.rebaseFails (stripName tb) (stripName b.name) <;> simp)
        subst hcas
        rw [printTreeLoop_cons_fail ora push a recurse depth b bs tb htb hrf] at h
        cases hrest : printTreeLoop ora true push (some a) recurse depth bs with
        | error e => rw [hrest] at h; simp [Except.map] at h
        | ok q =>
          rw [hrest] at h
          cases q with
          | mk evs2 r2 =>
            simp [Except.map] at h
            rw [← h.2]
            exact ih _ _ hrest

/-- C7 core: whenever the tree walk terminates, its boolean result is `True`:
rendering itself never produces `False`. -/
theorem printTree_result_true (ora : VcsOracle) (dag : Dag) (cascade push : Bool) :
    ∀ (active : Option String) fuel name depth evs r,
      printTree ora dag cascade push active fuel name depth = Except.ok (evs, r) →
      r = true := by
  intro active fuel
  induction fuel with
  | zero => intro name depth evs r h; simp [printTree] at h
  | succ f ih =>
    intro name depth evs r h
    unfold printTree at h
    split at h
    · simp at h
      exact h.2
    · split at h
      · cases active with
        | none => simp at h
        | some a =>
          dsimp only at h
          cases hin : printTree ora dag cascade push (some a) f name 1 with
          | error e => rw [hin] at h; simp at h
          | ok p =>
            rw [hin] at h
            cases p with
            | mk evs0 r0 =>
              simp at h
              rw [← h.2]
              exact ih _ _ _ _ hin
      · exact printTreeLoop_result_true ora cascade push active _ depth
          (fun c evs0 r0 hc => ih _ _ _ _ hc) _ _ _ h

/-- The child loop succeeds when the walk is attached, every child is tracked
and every recursive call succeeds. -/
theorem printTreeLoop_ok (ora : VcsOracle) (cascade push : Bool) (a : String)
    (recurse : String → Except WalkErr (List Event × Bool)) (depth : Nat) :
    ∀ L, (∀ b ∈ L, (b.tracking).isSome = true ∧
        ∃ p, recurse (stripName b.name) = Except.ok p) →
      ∃ p, printTreeLoop ora cascade push (some a) recurse depth L =
        Except.ok p := by
  intro L
  induction L with
  | nil => intro _; exact ⟨([], true), rfl⟩
  | cons b bs ih =>
    intro h
    obtain ⟨tb, htb⟩ := Option.isSome_iff_exists.mp (h b (by simp)).1
    obtain ⟨q, hq⟩ := ih (fun b2 hb2 => h b2 (by simp [hb2]))
    by_cases hedge : cascade = true → ora.rebaseFails (stripName tb) (stripName b.name) = false
    · rw [printTreeLoop_cons_ok ora cascade push a recurse depth b bs tb htb hedge]
      obtain ⟨p, hp⟩ := (h b (by simp)).2
      rw [hp]
      cases p with
      | mk evs r =>
        cases r with
        | false => exact ⟨_, rfl⟩
        | true =>
          dsimp only
          rw [if_pos rfl, hq]
          exact ⟨_, rfl⟩
    · have hcas : cascade = true := by
        by_contra hc
        exact hedge (fun hx => absurd hx hc)
      have hrf : ora.rebaseFails (stripName tb) (stripName b.name) = true := by
        by_contra hc
        exact hedge (fun _ => by
          revert hc
          cases ora.rebaseFails (stripName tb) (stripName b.name) <;> simp)
      subst hcas
      rw [printTreeLoop_cons_fail ora push a recurse depth b bs tb htb hrf]
      rw [hq]
      exact ⟨_, rfl⟩

/-- The attached tree walk succeeds on a well-formed acyclic dag given fuel
exceeding the rank of the start branch. -/
theorem printTree_ok (ora : VcsOracle) (dag : Dag) (cascade push : Bool)
    (a : String) (rank : String → Nat) (hwf : WellFormedDag dag)
    (hac : AcyclicDag dag rank) :
    ∀ fuel name depth,
      (if depth = 0 then rank name + 2 else rank name + 1) ≤ fuel →
      ∃ p, printTree ora dag cascade push (some a) fuel name depth =
        Except.ok p := by
  intro fuel
  induction fuel with
  | zero =>
    intro name depth hle
    split at hle <;> omega
  | succ f ih =>
    intro name depth hle
    unfold printTree
    cases hdag : dag name with
    | none => exact ⟨([], true), by simp [hdag]⟩
    | some l =>
      simp only [hdag, Option.isNone_some, Bool.false_eq_true, if_false]
      split
      · obtain ⟨p, hp⟩ := ih name 1 (by
          simp only [if_neg (by omega : ¬(1 : Nat) = 0)]
          split at hle <;> omega)
        cases p with
        | mk evs r =>
          refine ⟨(Event.printBranch name 0 "" :: evs, r), ?_⟩
          dsimp only
          rw [hp]
      · apply printTreeLoop_ok
        intro b hb
        have hbl : b ∈ l := by
          simpa [childListF, hdag] using hb
        refine ⟨hwf _ _ hdag b hbl, ?_⟩
        apply ih
        have hrk : rank (stripName b.name) < rank name := hac _ _ hdag b hbl
        simp only [if_neg (by omega : ¬depth + 1 = 0)]
        split at hle <;> omega

/-- The chain example dag is well formed. -/
theorem chainDag_wf : WellFormedDag chainDag := by
  intro k l h b hb
  unfold chainDag at h
  split_ifs at h with h1 h2
  · injection h with h'
    subst h'
    simp at hb
    subst hb
    decide
  · injection h with h'
    subst h'
    simp at hb

/-- The chain example dag is acyclic for `chainRank`. -/
theorem chainDag_acyclic : AcyclicDag chainDag chainRank := by
  intro k l h b hb
  unfold chainDag at h
  split_ifs at h with h1 h2
  · injection h with h'
    subst h'
    simp at hb
    subst hb
    subst h1
    decide
  · injection h with h'
    subst h'
    simp at hb

/-- The chain example dag is forest shaped. -/
theorem chainDag_forest : ForestDag chainDag := by
  constructor
  · intro k l h
    unfold chainDag at h
    split_ifs at h with h1 h2
    · injection h with h'
      subst h'
      decide
    · injection h with h'
      subst h'
      decide
  · intro k1 l1 k2 l2 b1 b2 h1 h2 hb1 hb2 _
    unfold chainDag at h1 h2
    split_ifs at h1 with ha hb
    · split_ifs at h2 with hc hd
      · rw [ha, hc]
      · injection h2 with h2'
        subst h2'
        simp at hb2
    · split_ifs at h2 with hc hd
      · injection h1 with h1'
        subst h1'
        simp at hb1
      · rw [hb, hd]

/-- C7: the tree walk's boolean means the full subtree was rendered without an
early stop; the only source of `False` is a recursive call, and rendering
itself never produces one, so on every well-formed finite acyclic dag the walk
terminates and returns `True` — the early-stop branch is unreachable. -/
theorem print_tree_walk_returns_true (ora : VcsOracle) (dag : Dag)
    (cascade push : Bool) (a : String) (rank : String → Nat) (start : String)
    (fuel0 : Nat) :
    (∀ (active : Option String) fuel name depth evs r,
      printTree ora dag cascade push active fuel name depth = Except.ok (evs, r) →
      r = true)
    ∧ (WellFormedDag dag → AcyclicDag dag rank → rank start + 2 ≤ fuel0 →
        ∃ evs, printTree ora dag cascade push (some a) fuel0 start 0 =
          Except.ok (evs, true)) := by
  constructor
  · exact printTree_result_true ora dag cascade push
  · intro hwf hac hf
    obtain ⟨p, hp⟩ := printTree_ok ora dag cascade push a rank hwf hac fuel0 start 0
      (by simp only [reduceIte]; omega)
    cases p with
    | mk evs r =>
      have hr := printTree_result_true ora dag cascade push (some a) fuel0 start 0
        evs r hp
      subst hr
      exact ⟨evs, hp⟩

/-- Witness for `print_tree_walk_returns_true` on the chain example. -/
theorem print_tree_walk_returns_true_witness :
    (WellFormedDag chainDag ∧ AcyclicDag chainDag chainRank ∧
      chainRank "master" + 2 ≤ 4) ∧
    ∃ evs, printTree oraOk chainDag true false (some "master") 4 "master" 0 =
      Except.ok (evs, true) :=
  ⟨⟨chainDag_wf, chainDag_acyclic, by decide⟩,
    (print_tree_walk_returns_true oraOk chainDag true false "master" chainRank
      "master" 4).2 chainDag_wf chainDag_acyclic (by decide)⟩

/-- Print names distribute over trace concatenation. -/
theorem printNames_append (l1 l2 : List Event) :
    printNames (l1 ++ l2) = printNames l1 ++ printNames l2 := by
  simp [printNames]

/-- The cascade step events contain no print line. -/
theorem printNames_stepEvs (ora : VcsOracle) (cascade push : Bool)
    (parent bname : String) :
    printNames (stepEvs ora cascade push parent bname) = [] := by
  unfold stepEvs force_push_no_verify printNames
  cases cascade <;> cases push <;> cases h : ora.pushFails bname <;> simp

/-- The abort events contain no print line. -/
theorem printNames_abort (ora : VcsOracle) :
    printNames (abort_reabse ora) = [] := by
  unfold abort_reabse printNames
  cases ora.abortFails <;> simp

/-- Ranks strictly decrease along subtree visibility. -/
theorem subVis_rank_lt {dag : Dag} {rank : String → Nat} {ok : Branch → Prop}
    (hac : AcyclicDag dag rank) :
    ∀ {x c}, SubVis dag ok x c → rank c < rank x := by
  intro x c h
  induction h with
  | child hx hb => exact hac _ _ hx _ hb
  | step hx hb _ _ ih => exact lt_trans ih (hac _ _ hx _ hb)

/-- Every visible name has a parent occurrence in some child list, itself
either the subtree root or visible from it. -/
theorem subVis_parent {dag : Dag} {ok : Branch → Prop} :
    ∀ {x c}, SubVis dag ok x c →
      ∃ p l b, dag p = some l ∧ b ∈ l ∧ stripName b.name = c ∧
        (p = x ∨ SubVis dag ok x p) := by
  intro x c h
  induction h with
  | child hx hb => exact ⟨_, _, _, hx, hb, rfl, Or.inl rfl⟩
  | step hx hb hok _ ih =>
    obtain ⟨p, l', b', hp, hb', hname, hcase⟩ := ih
    refine ⟨p, l', b', hp, hb', hname, Or.inr ?_⟩
    cases hcase with
    | inl he =>
      rw [he]
      exact SubVis.child hx hb
    | inr hs => exact SubVis.step hx hb hok hs

/-- In a forest, two roots seeing a common name are comparable. -/
theorem subVis_comparable {dag : Dag} {rank : String → Nat} {ok : Branch → Prop}
    (hfor : ForestDag dag) (hac : AcyclicDag dag rank) :
    ∀ (n : Nat) (x y c : String), rank x - rank c ≤ n →
      SubVis dag ok x c → SubVis dag ok y c →
      x = y ∨ SubVis dag ok x y ∨ SubVis dag ok y x := by
  intro n
  induction n with
  | zero =>
    intro x y c hle hx hy
    have := subVis_rank_lt hac hx
    omega
  | succ n ih =>
    intro x y c hle hx hy
    obtain ⟨p1, l1, b1, hp1, hb1, hn1, hc1⟩ := subVis_parent hx
    obtain ⟨p2, l2, b2, hp2, hb2, hn2, hc2⟩ := subVis_parent hy
    have hpp : p1 = p2 := hfor.2 _ _ _ _ _ _ hp1 hp2 hb1 hb2 (hn1.trans hn2.symm)
    subst hpp
    cases hc1 with
    | inl h1 =>
      cases hc2 with
      | inl h2 => exact Or.inl (h1.symm.trans h2)
      | inr h2 =>
        right; right
        rw [← h1]
        exact h2
    | inr h1 =>
      cases hc2 with
      | inl h2 =>
        right; left
        rw [← h2]
        exact h1
      | inr h2 =>
        have h3 : rank c < rank p1 := by
          rw [← hn1]
          exact hac _ _ hp1 _ hb1
        have h4 : rank p1 < rank x := subVis_rank_lt hac h1
        exact ih x y p1 (by omega) h1 h2

/-- In a forest, the closures of two distinct-named siblings are disjoint. -/
theorem sibling_closures_disjoint {dag : Dag} {rank : String → Nat}
    {ok : Branch → Prop} (hfor : ForestDag dag) (hac : AcyclicDag dag rank)
    {k : String} {l : List Branch} {b1 b2 : Branch} {c : String}
    (hk : dag k = some l) (hb1 : b1 ∈ l) (hb2 : b2 ∈ l)
    (hne : stripName b1.name ≠ stripName b2.name)
    (h1 : c = stripName b1.name ∨ SubVis dag ok (stripName b1.name) c)
    (h2 : c = stripName b2.name ∨ SubVis dag ok (stripName b2.name) c) :
    False := by
  have haux : ∀ (ba bb : Branch) (c2 : String), ba ∈ l → bb ∈ l →
      c2 = stripName ba.name → SubVis dag ok (stripName bb.name) c2 → False := by
    intro ba bb c2 hba hbb hceq hsub
    obtain ⟨p, l2, b3, hp, hb3, hname, hcase⟩ := subVis_parent hsub
    have hpk : p = k := hfor.2 _ _ _ _ _ _ hp hk hb3 hba (hname.trans hceq)
    subst hpk
    cases hcase with
    | inl he =>
      have hlt : rank (stripName bb.name) < rank p := hac _ _ hk _ hbb
      rw [← he] at hlt
      exact lt_irrefl _ hlt
    | inr hs =>
      have hlt1 : rank p < rank (stripName bb.name) := subVis_rank_lt hac hs
      have hlt2 : rank (stripName bb.name) < rank p := hac _ _ hk _ hbb
      omega
  cases h1 with
  | inl h1 =>
    cases h2 with
    | inl h2 => exact hne (h1.symm.trans h2)
    | inr h2 => exact haux b1 b2 c hb1 hb2 h1 h2
  | inr h1 =>
    cases h2 with
    | inl h2 => exact haux b2 b1 c hb2 hb1 h2 h1
    | inr h2 =>
      rcases subVis_comparable hfor hac (rank (stripName b1.name)) _ _ _ (by omega)
          h1 h2 with heq | hlt | hgt
      · exact hne heq
      · exact haux b2 b1 (stripName b2.name) hb2 hb1 rfl hlt
      · exact haux b1 b2 (stripName b1.name) hb1 hb2 rfl hgt

/-- A print line prepended to a trace contributes its branch name. -/
theorem printNames_cons_print (n : String) (d : Nat) (p : String) (l : List Event) :
    printNames (Event.printBranch n d p :: l) = n :: printNames l := by
  simp [printNames]

/-- The failed-edge block contributes no print line beyond the child's own. -/
theorem printNames_fail_block (ora : VcsOracle) (parent bname : String)
    (l : List Event) :
    printNames (([Event.rebaseAttempt parent bname, Event.rebaseFailLog bname] ++
      abort_reabse ora) ++ l) = printNames l := by
  rw [printNames_append, printNames_append, printNames_abort]
  simp [printNames]

/-- The characterization of one child loop: on a forest, with every recursive
call characterized by subtree visibility, the loop terminates with `True`, its
print lines are exactly `LoopVis`, and no branch is printed twice. -/
theorem printTreeLoop_char (ora : VcsOracle) (cascade push : Bool) (a : String)
    (dag : Dag)
    (rank : String → Nat) (hfor : ForestDag dag) (hac : AcyclicDag dag rank)
    (recurse : String → Except WalkErr (List Event × Bool)) (depth : Nat)
    (k : String) (l : List Branch) (hk : dag k = some l) :
    ∀ L, (∀ b ∈ L, b ∈ l) →
      (L.map (fun b => stripName b.name)).Nodup →
      (∀ b ∈ L, (b.tracking).isSome = true) →
      (∀ b ∈ L, ∃ evs, recurse (stripName b.name) = Except.ok (evs, true) ∧
        (∀ c, c ∈ printNames evs ↔
          SubVis dag (okP ora cascade) (stripName b.name) c) ∧
        (printNames evs).Nodup) →
      ∃ evs, printTreeLoop ora cascade push (some a) recurse depth L =
          Except.ok (evs, true) ∧
        (∀ c, c ∈ printNames evs ↔ LoopVis ora cascade dag L c) ∧
        (printNames evs).Nodup := by
  intro L
  induction L with
  | nil =>
    intro _ _ _ _
    refine ⟨[], by simp [printTreeLoop], ?_, by simp [printNames]⟩
    intro c
    simp [printNames, LoopVis]
  | cons b bs ih =>
    intro hmem hnd hwfl hrec
    obtain ⟨tb, htb⟩ := Option.isSome_iff_exists.mp (hwfl b (by simp))
    have hndc : (∀ x ∈ bs, ¬stripName x.name = stripName b.name) ∧
        (List.map (fun b2 => stripName b2.name) bs).Nodup := by
      simpa using hnd
    obtain ⟨evs2, hevs2, hchar2, hnd2⟩ := ih (fun x hx => hmem x (by simp [hx]))
      hndc.2 (fun x hx => hwfl x (by simp [hx])) (fun x hx => hrec x (by simp [hx]))
    have hheadne : ∀ b2 ∈ bs, stripName b.name ≠ stripName b2.name := by
      intro b2 hb2 hcontra
      exact hndc.1 b2 hb2 hcontra.symm
    have hnotin2 : stripName b.name ∉ printNames evs2 := by
      intro hc
      obtain ⟨b2, hb2, hcc⟩ := (hchar2 _).mp hc
      exact sibling_closures_disjoint hfor hac hk (hmem b (by simp))
        (hmem b2 (by simp [hb2])) (hheadne b2 hb2) (Or.inl rfl)
        (Or.imp_right And.right hcc)
    by_cases hedge : edgeOkB ora cascade b = true
    · have hok2 : cascade = true →
          ora.rebaseFails (stripName tb) (stripName b.name) = false := by
        intro hc
        subst hc
        rw [edgeOkB, htb] at hedge
        simpa using hedge
      obtain ⟨evsb, hrecb, hcharb, hndb⟩ := hrec b (by simp)
      have hnotinb : stripName b.name ∉ printNames evsb := by
        intro hc
        have := subVis_rank_lt hac ((hcharb _).mp hc)
        omega
      have hdisj : ∀ c, c ∈ printNames evsb → c ∈ printNames evs2 → False := by
        intro c hcb hc2
        obtain ⟨b2, hb2, hcc⟩ := (hchar2 _).mp hc2
        exact sibling_closures_disjoint hfor hac hk (hmem b (by simp))
          (hmem b2 (by simp [hb2])) (hheadne b2 hb2)
          (Or.inr ((hcharb _).mp hcb)) (Or.imp_right And.right hcc)
      rw [printTreeLoop_cons_ok ora cascade push a recurse depth b bs tb htb hok2]
      rw [hrecb]
      simp only [if_true]
      rw [hevs2]
      simp only [Except.map]
      refine ⟨_, rfl, ?_, ?_⟩
      · intro c
        rw [printNames_cons_print, printNames_append, printNames_append,
          printNames_stepEvs]
        simp only [List.nil_append, List.mem_cons, List.mem_append]
        constructor
        · rintro (rfl | hc | hc)
          · exact ⟨b, by simp, Or.inl rfl⟩
          · exact ⟨b, by simp, Or.inr ⟨hedge, (hcharb c).mp hc⟩⟩
          · obtain ⟨b2, hb2, hcc⟩ := (hchar2 c).mp hc
            exact ⟨b2, by simp [hb2], hcc⟩
        · rintro ⟨b2, hb2, hcc⟩
          rcases List.mem_cons.mp hb2 with rfl | hb2
          · rcases hcc with rfl | ⟨_, hsub⟩
            · exact Or.inl rfl
            · exact Or.inr (Or.inl ((hcharb c).mpr hsub))
          · exact Or.inr (Or.inr ((hchar2 c).mpr ⟨b2, hb2, hcc⟩))
      · rw [printNames_cons_print, printNames_append, printNames_append,
          printNames_stepEvs]
        simp only [List.nil_append]
        rw [List.nodup_cons]
        refine ⟨?_, ?_⟩
        · intro hc
          rcases List.mem_append.mp hc with hc | hc
          · exact hnotinb hc
          · exact hnotin2 hc
        · rw [List.nodup_append]
          exact ⟨hndb, hnd2, fun c hcb hc2 => hdisj c hcb hc2⟩
    · have hcasf : cascade = true ∧
          ora.rebaseFails (stripName tb) (stripName b.name) = true := by
        rw [edgeOkB, htb] at hedge
        cases hcas : cascade with
        | false => rw [hcas] at hedge; simp at hedge
        | true =>
          refine ⟨rfl, ?_⟩
          rw [hcas] at hedge
          simpa using hedge
      obtain ⟨hcas, hrf⟩ := hcasf
      subst hcas
      rw [printTreeLoop_cons_fail ora push a recurse depth b bs tb htb hrf]
      rw [hevs2]
      simp only [Except.map]
      refine ⟨_, rfl, ?_, ?_⟩
      · intro c
        rw [printNames_cons_print, printNames_fail_block]
        simp only [List.mem_cons]
        constructor
        · rintro (rfl | hc)
          · exact ⟨b, by simp, Or.inl rfl⟩
          · obtain ⟨b2, hb2, hcc⟩ := (hchar2 c).mp hc
            exact ⟨b2, by simp [hb2], hcc⟩
        · rintro ⟨b2, hb2, hcc⟩
          rcases List.mem_cons.mp hb2 with rfl | hb2
          · rcases hcc with rfl | ⟨hok3, _⟩
            · exact Or.inl rfl
            · exact absurd hok3 hedge
          · exact Or.inr ((hchar2 c).mpr ⟨b2, hb2, hcc⟩)
      · rw [printNames_cons_print, printNames_fail_block]
        exact List.nodup_cons.mpr ⟨hnotin2, hnd2⟩

/-- No subtree visibility starts at a missing key. -/
theorem subVis_none {dag : Dag} {ok : Branch → Prop} {name c : String}
    (h : dag name = none) : ¬SubVis dag ok name c := by
  intro hs
  cases hs with
  | child hx _ => rw [h] at hx; exact Option.noConfusion hx
  | step hx _ _ _ => rw [h] at hx; exact Option.noConfusion hx

/-- Subtree visibility from a key unfolds to the loop visibility of its child
list. -/
theorem subVis_iff_loopVis (ora : VcsOracle) (cascade : Bool) {dag : Dag}
    {name : String} {l : List Branch} {c : String} (hk : dag name = some l) :
    SubVis dag (okP ora cascade) name c ↔ LoopVis ora cascade dag l c := by
  constructor
  · intro h
    cases h with
    | child hx hb =>
      have hl := Option.some.inj (hk.symm.trans hx)
      subst hl
      exact ⟨_, hb, Or.inl rfl⟩
    | step hx hb hok hsub =>
      have hl := Option.some.inj (hk.symm.trans hx)
      subst hl
      exact ⟨_, hb, Or.inr ⟨hok, hsub⟩⟩
  · rintro ⟨b, hb, hcc⟩
    rcases hcc with rfl | ⟨hok, hsub⟩
    · exact SubVis.child hk hb
    · exact SubVis.step hk hb hok hsub

/-- Characterization of a subtree walk at positive depth: it terminates with
`True`, prints exactly the subtree-visible names, and prints none twice. -/
theorem printTree_char (ora : VcsOracle) (cascade push : Bool) (a : String)
    (dag : Dag)
    (rank : String → Nat) (hwf : WellFormedDag dag) (hac : AcyclicDag dag rank)
    (hfor : ForestDag dag) :
    ∀ fuel name depth, depth ≠ 0 → rank name + 1 ≤ fuel →
      ∃ evs, printTree ora dag cascade push (some a) fuel name depth =
          Except.ok (evs, true) ∧
        (∀ c, c ∈ printNames evs ↔ SubVis dag (okP ora cascade) name c) ∧
        (printNames evs).Nodup := by
  intro fuel
  induction fuel with
  | zero => intro name depth hd hle; omega
  | succ f ih =>
    intro name depth hd hle
    cases hdag : dag name with
    | none =>
      refine ⟨[], by simp [printTree, hdag], ?_, by simp [printNames]⟩
      intro c
      constructor
      · intro hc
        simp [printNames] at hc
      · intro hsub
        exact absurd hsub (subVis_none hdag)
    | some l =>
      have hcl : childListF dag name = l := by simp [childListF, hdag]
      obtain ⟨evs, hevs, hchar, hnd⟩ :=
        printTreeLoop_char ora cascade push a dag rank hfor hac
          (fun c => printTree ora dag cascade push (some a) f c (depth + 1)) depth
          name l hdag
          l (fun b hb => hb) (hfor.1 _ _ hdag) (hwf _ _ hdag)
          (fun b hb => by
            have hrk : rank (stripName b.name) < rank name := hac _ _ hdag b hb
            exact ih (stripName b.name) (depth + 1) (by omega) (by omega))
      refine ⟨evs, ?_, ?_, hnd⟩
      · have hisno : (dag name).isNone = false := by simp [hdag]
        unfold printTree
        rw [hisno]
        simp only [Bool.false_eq_true, if_false, if_neg hd]
        rw [hcl]
        exact hevs
      · intro c
        rw [hchar c]
        exact (subVis_iff_loopVis ora cascade hdag).symm

/-- Under a never-failing rebase oracle, plain reachability implies
oracle-aware visibility on a well-formed dag. -/
theorem subVis_true_to_okP (ora : VcsOracle) (cascade : Bool) {dag : Dag}
    (hwf : WellFormedDag dag)
    (hnf : ∀ p c2, ora.rebaseFails p c2 = false) :
    ∀ {x c}, SubVis dag (fun _ => True) x c → SubVis dag (okP ora cascade) x c := by
  intro x c h
  induction h with
  | child hx hb => exact SubVis.child hx hb
  | step hx hb _ _ ih =>
    refine SubVis.step hx hb ?_ ih
    obtain ⟨t, ht⟩ := Option.isSome_iff_exists.mp (hwf _ _ hx _ hb)
    show edgeOkB ora cascade _ = true
    rw [edgeOkB, ht]
    simp [hnf]

/-- C3 (amended): on a well-formed, acyclic, forest-shaped dag — the shape of
every dag `build_git_dag` produces — a cascade from `start` terminates, prints
no branch twice, prints exactly the branches visible through expanded edges (a
child whose rebase fails is still printed, but its descendants are not, while
siblings and unrelated subtrees still are), and with a never-failing oracle
prints every reachable branch exactly once. -/
theorem cascade_visit_characterization (ora : VcsOracle) (dag : Dag)
    (cascade push : Bool) (a : String) (rank : String → Nat) (start : String)
    (fuel : Nat)
    (hwf : WellFormedDag dag) (hac : AcyclicDag dag rank) (hfor : ForestDag dag)
    (hfuel : rank start + 2 ≤ fuel) :
    ∃ evs, printTree ora dag cascade push (some a) fuel start 0 =
        Except.ok (evs, true) ∧
      (printNames evs).Nodup ∧
      (∀ c, c ∈ printNames evs ↔ PrintedOk ora cascade dag start c) ∧
      ((∀ p c2, ora.rebaseFails p c2 = false) →
        ∀ c, ReachPrint dag start c → c ∈ printNames evs) := by
  obtain ⟨f, rfl⟩ : ∃ f, fuel = f + 1 := ⟨fuel - 1, by omega⟩
  cases hdag : dag start with
  | none =>
    refine ⟨[], by simp [printTree, hdag], by simp [printNames], ?_, ?_⟩
    · intro c
      constructor
      · intro hc
        simp [printNames] at hc
      · rintro ⟨hsome, _⟩
        rw [hdag] at hsome
        simp at hsome
    · intro _ c ⟨hsome, _⟩
      rw [hdag] at hsome
      simp at hsome
  | some l =>
    obtain ⟨evs, hevs, hchar, hnd⟩ :=
      printTree_char ora cascade push a dag rank hwf hac hfor f start 1
        (by omega) (by omega)
    have hnotin : start ∉ printNames evs := by
      intro hc
      have := subVis_rank_lt hac ((hchar _).mp hc)
      omega
    have heq : printTree ora dag cascade push (some a) (f + 1) start 0 =
        Except.ok (Event.printBranch start 0 "" :: evs, true) := by
      have hisno : (dag start).isNone = false := by simp [hdag]
      unfold printTree
      rw [hisno]
      simp [hevs]
    refine ⟨_, heq, ?_, ?_, ?_⟩
    · rw [printNames_cons_print]
      exact List.nodup_cons.mpr ⟨hnotin, hnd⟩
    · intro c
      rw [printNames_cons_print]
      simp only [List.mem_cons]
      constructor
      · rintro (rfl | hc)
        · exact ⟨by simp [hdag], Or.inl rfl⟩
        · exact ⟨by simp [hdag], Or.inr ((hchar c).mp hc)⟩
      · rintro ⟨_, rfl | hsub⟩
        · exact Or.inl rfl
        · exact Or.inr ((hchar c).mpr hsub)
    · rintro hnf c ⟨_, hreach⟩
      rw [printNames_cons_print]
      rcases hreach with rfl | hsub
      · exact List.mem_cons_self _ _
      · exact List.mem_cons_of_mem _
          ((hchar c).mpr (subVis_true_to_okP ora cascade hwf hnf hsub))

/-- Witness for `cascade_visit_characterization` on the chain example. -/
theorem cascade_visit_characterization_witness :
    (WellFormedDag chainDag ∧ AcyclicDag chainDag chainRank ∧
      ForestDag chainDag ∧ chainRank "master" + 2 ≤ 4) ∧
    ∃ evs, printTree oraOk chainDag true false (some "master") 4 "master" 0 =
        Except.ok (evs, true) ∧
      (printNames evs).Nodup ∧
      (∀ c, c ∈ printNames evs ↔ PrintedOk oraOk true chainDag "master" c) ∧
      ((∀ p c2, oraOk.rebaseFails p c2 = false) →
        ∀ c, ReachPrint chainDag "master" c → c ∈ printNames evs) :=
  ⟨⟨chainDag_wf, chainDag_acyclic, chainDag_forest, by decide⟩,
    cascade_visit_characterization oraOk chainDag true false "master" chainRank
      "master" 4 chainDag_wf chainDag_acyclic chainDag_forest (by decide)⟩

/-- The diamond dag is well formed. -/
theorem diamondDag_wf : WellFormedDag diamondDag := by
  intro k l h b hb
  unfold diamondDag at h
  split_ifs at h with h1 h2 h3 <;>
    (injection h with h'
     subst h'
     simp at hb) <;>
    first
    | (subst hb; decide)
    | (rcases hb with rfl | rfl <;> decide)

/-- The diamond dag is acyclic for `diamondRank`. -/
theorem diamondDag_acyclic : AcyclicDag diamondDag diamondRank := by
  intro k l h b hb
  unfold diamondDag at h
  split_ifs at h with h1 h2 h3 <;>
    (injection h with h'
     subst h'
     simp at hb) <;>
    first
    | (subst hb
       first
       | (subst h2; decide)
       | (subst h3; decide))
    | (subst h1; rcases hb with rfl | rfl <;> decide)

/-- Counterexample to C3 as stated: the walk over a well-formed finite acyclic
dag that is not forest-shaped (a diamond, which no `build_git_dag` output ever
is) renders branch `C` twice — reachable branches are not visited at most
once on arbitrary acyclic dags. -/
theorem cascade_visits_twice_on_diamond :
    WellFormedDag diamondDag ∧ AcyclicDag diamondDag diamondRank ∧
    ∃ evs, printTree oraOk diamondDag true false (some "S") 6 "S" 0 =
        Except.ok (evs, true) ∧
      (printNames evs).count "C" = 2 :=
  ⟨diamondDag_wf, diamondDag_acyclic, ⟨_, rfl, by decide⟩⟩

/-- Counting a root name over the contributions is the sum of per-branch
counts. -/
theorem count_rootsContrib (r : String) :
    ∀ (bs : List Branch),
      (rootsContrib bs).count r =
        (bs.map (fun b => (rootContrib b).count r)).sum := by
  intro bs
  induction bs with
  | nil => simp [rootsContrib]
  | cons b bs ih =>
    simp only [rootsContrib, List.flatMap_cons, List.count_append, List.map_cons,
      List.sum_cons]
    rw [← ih]
    rfl

/-- Two distinct members each contribute to the sum of a map. -/
theorem two_mem_sum_le {α : Type} (l : List α) (g : α → Nat) (b1 b2 : α)
    (h1 : b1 ∈ l) (h2 : b2 ∈ l) (hne : b1 ≠ b2) :
    g b1 + g b2 ≤ (l.map g).sum := by
  induction l with
  | nil => simp at h1
  | cons a l ih =>
    simp only [List.map_cons, List.sum_cons]
    rcases List.mem_cons.mp h1 with rfl | h1'
    · have hb2 : b2 ∈ l := by
        rcases List.mem_cons.mp h2 with rfl | h
        · exact absurd rfl hne
        · exact h
      have hle : g b2 ≤ (l.map g).sum :=
        List.single_le_sum (fun x _ => Nat.zero_le x) _
          (List.mem_map.mpr ⟨b2, hb2, rfl⟩)
      omega
    · rcases List.mem_cons.mp h2 with rfl | h2'
      · have hle : g b1 ≤ (l.map g).sum :=
          List.single_le_sum (fun x _ => Nat.zero_le x) _
            (List.mem_map.mpr ⟨b1, h1', rfl⟩)
        omega
      · have := ih h1' h2'
        omega

/-- C10: the roots list is not deduplicated — two distinct branches tracking
the same `origin`-prefixed name put that name into the roots twice — and the
render loop replays whole subtrees once per root occurrence: when every root
walk terminates, the `print_dag` trace is the concatenation, over the roots
list with multiplicity, of each root's full subtree trace. -/
theorem roots_duplicated_rendered_per_occurrence (branches : List Branch)
    (b1 b2 : Branch) (t1 t2 r : String)
    (h1 : b1 ∈ branches) (h2 : b2 ∈ branches) (hne : b1 ≠ b2)
    (ht1 : b1.tracking = some t1) (ht2 : b2.tracking = some t2)
    (hs1 : stripName t1 = r) (hs2 : stripName t2 = r)
    (ho : pyStartsWith r "origin" = true) :
    2 ≤ (buildGitDag branches).2.count r
    ∧ (∀ (ora : VcsOracle) (dag : Dag) (cascade push : Bool)
        (active : Option String) (fuel : Nat) (rs : List (Option String)),
        (∀ nm, some nm ∈ rs →
          ∃ p, printTree ora dag cascade push active fuel nm 0 = Except.ok p) →
        print_dag ora dag cascade push active fuel rs =
          Except.ok (rs.flatMap (treeEvents ora dag cascade push active fuel))) := by
  constructor
  · have hroots : (buildGitDag branches).2 = rootsContrib branches := by
      unfold buildGitDag
      rw [buildGitDagAux_roots_eq]
      simp
    rw [hroots, count_rootsContrib]
    have hg1 : (rootContrib b1).count r = 1 := by
      simp [rootContrib, ht1, hs1, ho]
    have hg2 : (rootContrib b2).count r = 1 := by
      simp [rootContrib, ht2, hs2, ho]
    have h2m := two_mem_sum_le branches (fun b => (rootContrib b).count r) b1 b2 h1 h2 hne
    simp only [hg1, hg2] at h2m
    omega
  · intro ora dag cascade push active fuel rs
    induction rs with
    | nil => intro _; simp [print_dag]
    | cons o rs ih =>
      intro h
      cases o with
      | none =>
        rw [print_dag]
        rw [ih (fun nm hnm => h nm (by simp [hnm]))]
        simp [treeEvents]
      | some nm =>
        obtain ⟨p, hp⟩ := h nm (by simp)
        cases p with
        | mk evs flag =>
          have hflag : flag = true :=
            printTree_result_true ora dag cascade push active fuel nm 0 evs flag hp
          subst hflag
          rw [print_dag, hp]
          simp only [if_true]
          rw [ih (fun nm2 hnm2 => h nm2 (by simp [hnm2]))]
          simp [treeEvents, hp]

/-- Witness for `roots_duplicated_rendered_per_occurrence` with two branches
tracking `origin/master`. -/
theorem roots_duplicated_rendered_per_occurrence_witness :
    ((⟨"f1", some "origin/master"⟩ : Branch) ∈
        [(⟨"f1", some "origin/master"⟩ : Branch), ⟨"f2", some "origin/master"⟩] ∧
      (⟨"f2", some "origin/master"⟩ : Branch) ∈
        [(⟨"f1", some "origin/master"⟩ : Branch), ⟨"f2", some "origin/master"⟩] ∧
      (⟨"f1", some "origin/master"⟩ : Branch) ≠ ⟨"f2", some "origin/master"⟩ ∧
      stripName "origin/master" = "origin/master" ∧
      pyStartsWith "origin/master" "origin" = true) ∧
    (2 ≤ (buildGitDag
        [(⟨"f1", some "origin/master"⟩ : Branch),
         ⟨"f2", some "origin/master"⟩]).2.count "origin/master"
    ∧ (∀ (ora : VcsOracle) (dag : Dag) (cascade push : Bool)
        (active : Option String) (fuel : Nat) (rs : List (Option String)),
        (∀ nm, some nm ∈ rs →
          ∃ p, printTree ora dag cascade push active fuel nm 0 = Except.ok p) →
        print_dag ora dag cascade push active fuel rs =
          Except.ok (rs.flatMap (treeEvents ora dag cascade push active fuel)))) :=
  ⟨⟨by decide, by decide, by decide, by decide, by decide⟩,
    roots_duplicated_rendered_per_occurrence
      [(⟨"f1", some "origin/master"⟩ : Branch), ⟨"f2", some "origin/master"⟩]
      ⟨"f1", some "origin/master"⟩ ⟨"f2", some "origin/master"⟩
      "origin/master" "origin/master" "origin/master"
      (by decide) (by decide) (by decide) rfl rfl (by decide) (by decide) (by decide)⟩

/-- A failing start checkout is the only error of the checkout phase. -/
theorem checkoutPhase_error (ora : VcsOracle) (a an : Option String)
    (e : MainErr) (h : checkoutPhase ora a an = Except.error e) :
    ∃ s, e = MainErr.startCheckoutFailed s ∧ ora.checkoutFails s = true := by
  unfold checkoutPhase at h
  split at h
  · cases a with
    | none => simp at h
    | some s =>
      unfold checkoutFn at h
      dsimp only at h
      by_cases hc : ora.checkoutFails s = true
      · rw [hc] at h
        simp [Except.mapError] at h
        exact ⟨s, h.symm, hc⟩
      · rw [Bool.not_eq_true] at hc
        rw [hc] at h
        simp [Except.mapError] at h
  · simp at h

/-- The checkout phase succeeds when no checkout fails. -/
theorem checkoutPhase_ok (ora : VcsOracle) (a an : Option String)
    (h : ∀ s, ora.checkoutFails s = false) :
    ∃ evs, checkoutPhase ora a an = Except.ok evs := by
  unfold checkoutPhase
  split
  · cases a with
    | none => exact ⟨_, rfl⟩
    | some s =>
      unfold checkoutFn
      dsimp only
      rw [h s]
      simp [Except.mapError]
  · exact ⟨[], rfl⟩

/-- The refresh phase fails only when refresh is requested with no resolvable
branch (the `assert` in `branch_name` escapes). -/
theorem refreshPhase_error (ora : VcsOracle) (dr : Bool) (ab : Option String)
    (e : MainErr) (h : refreshPhase ora dr ab = Except.error e) :
    e = MainErr.refreshAssertFailure ∧ dr = true ∧ ab = none := by
  unfold refreshPhase at h
  split at h
  · cases ab with
    | none =>
      simp [refresh_branch, Except.mapError] at h
      exact ⟨h.symm, by assumption, rfl⟩
    | some s => simp [refresh_branch, Except.mapError] at h
  · simp at h

/-- The refresh phase succeeds whenever refresh is off or a branch resolved. -/
theorem refreshPhase_ok (ora : VcsOracle) (dr : Bool) (ab : Option String)
    (h : dr = true → ab.isSome = true) :
    ∃ evs, refreshPhase ora dr ab = Except.ok evs := by
  unfold refreshPhase
  split
  · obtain ⟨s, hs⟩ := Option.isSome_iff_exists.mp (h (by assumption))
    subst hs
    simp [refresh_branch, Except.mapError]
  · exact ⟨[], rfl⟩

/-- A failing final checkout is the only error of the final checkout phase. -/
theorem finalCheckoutPhase_error (ora : VcsOracle) (act : Option String)
    (e : MainErr) (h : finalCheckoutPhase ora act = Except.error e) :
    ∃ raw, e = MainErr.finalCheckoutFailed ∧ act = some raw ∧
      ora.checkoutFails raw = true := by
  unfold finalCheckoutPhase at h
  cases act with
  | none => simp at h
  | some raw =>
    dsimp only at h
    by_cases hc : ora.checkoutFails raw = true
    · rw [hc] at h
      simp at h
      exact ⟨raw, h.symm, rfl, hc⟩
    · rw [Bool.not_eq_true] at hc
      rw [hc] at h
      simp at h

/-- A successful final checkout emits exactly the restore-checkout events. -/
theorem finalCheckoutPhase_ok_shape (ora : VcsOracle) (act : Option String)
    (evs : List Event) (h : finalCheckoutPhase ora act = Except.ok evs) :
    evs = finalCheckoutEvs act := by
  unfold finalCheckoutPhase at h
  cases act with
  | none =>
    simp at h
    exact h.symm
  | some raw =>
    dsimp only at h
    by_cases hc : ora.checkoutFails raw = true
    · rw [hc] at h
      simp at h
    · rw [Bool.not_eq_true] at hc
      rw [hc] at h
      simp at h
      exact h.symm

/-- The final checkout phase succeeds when no checkout fails. -/
theorem finalCheckoutPhase_ok (ora : VcsOracle) (act : Option String)
    (h : ∀ s, ora.checkoutFails s = false) :
    finalCheckoutPhase ora act = Except.ok (finalCheckoutEvs act) := by
  unfold finalCheckoutPhase
  cases act with
  | none => rfl
  | some raw => dsimp only; rw [h raw]; simp

/-- Every dag `build_git_dag` produces is well formed: children only enter a
child list through their tracking branch. -/
theorem buildGitDag_wf (branches : List Branch) :
    WellFormedDag (buildGitDag branches).1 := by
  intro k l hk b hb
  have hcl : childListF ((buildGitDag branches).1) k =
      childrenContrib k branches := by
    unfold buildGitDag
    rw [buildGitDagAux_childList_eq]
    simp [childListF]
  have hl : l = childrenContrib k branches := by
    rw [← hcl]
    simp [childListF, hk]
  rw [hl] at hb
  unfold childrenContrib at hb
  have hpred := List.of_mem_filter hb
  cases htb : b.tracking with
  | none => rw [htb] at hpred; simp at hpred
  | some t => rfl

/-- An attached child loop over tracked children never raises the
`branch_name` assertion. -/
theorem printTreeLoop_no_assert (ora : VcsOracle) (cascade push : Bool)
    (a : String) (recurse : String → Except WalkErr (List Event × Bool))
    (depth : Nat)
    (hrec : ∀ c, recurse c ≠ Except.error WalkErr.assertErr) :
    ∀ L, (∀ b ∈ L, (b.tracking).isSome = true) →
      printTreeLoop ora cascade push (some a) recurse depth L ≠
        Except.error WalkErr.assertErr := by
  intro L
  induction L with
  | nil => intro _ h; simp [printTreeLoop] at h
  | cons b bs ih =>
    intro hwfl h
    obtain ⟨tb, htb⟩ := Option.isSome_iff_exists.mp (hwfl b (by simp))
    have hrest := ih (fun b2 hb2 => hwfl b2 (by simp [hb2]))
    by_cases hedge : cascade = true → ora.rebaseFails (stripName tb) (stripName b.name) = false
    · rw [printTreeLoop_cons_ok ora cascade push a recurse depth b bs tb htb hedge] at h
      cases hr : recurse (stripName b.name) with
      | error e =>
        rw [hr] at h
        dsimp only at h
        injection h with he
        rw [he] at hr
        exact hrec _ hr
      | ok p =>
        rw [hr] at h
        cases p with
        | mk evs r =>
          cases r with
          | false => simp at h
          | true =>
            cases hr2 : printTreeLoop ora cascade push (some a) recurse depth bs with
            | error e =>
              rw [hr2] at h
              simp [Except.map] at h
              rw [h] at hr2
              exact hrest hr2
            | ok q => rw [hr2] at h; simp [Except.map] at h
    · have hcas : cascade = true := by
        by_contra hc
        exact hedge (fun hx => absurd hx hc)
      have hrf : ora.rebaseFails (stripName tb) (stripName b.name) = true := by
        by_contra hc
        exact hedge (fun _ => by
          revert hc
          cases ora.rebaseFails (stripName tb) (stripName b.name) <;> simp)
      subst hcas
      rw [printTreeLoop_cons_fail ora push a recurse depth b bs tb htb hrf] at h
      cases hr2 : printTreeLoop ora true push (some a) recurse depth bs with
      | error e =>
        rw [hr2] at h
        simp [Except.map] at h
        rw [h] at hr2
        exact hrest hr2
      | ok q => rw [hr2] at h; simp [Except.map] at h

/-- On a well-formed dag, an attached tree walk never raises the `branch_name`
assertion: the only `AssertionError` source needs a detached HEAD or an
untracked child. -/
theorem printTree_no_assert (ora : VcsOracle) (dag : Dag) (cascade push : Bool)
    (a : String) (hwf : WellFormedDag dag) :
    ∀ fuel name depth,
      printTree ora dag cascade push (some a) fuel name depth ≠
        Except.error WalkErr.assertErr := by
  intro fuel
  induction fuel with
  | zero => intro name depth h; simp [printTree] at h
  | succ f ih =>
    intro name depth h
    unfold printTree at h
    cases hdag : dag name with
    | none => rw [hdag] at h; simp at h
    | some l =>
      rw [hdag] at h
      simp only [Option.isNone_some, Bool.false_eq_true, if_false] at h
      by_cases hd : depth = 0
      · rw [if_pos hd] at h
        cases hin : printTree ora dag cascade push (some a) f name 1 with
        | error e =>
          rw [hin] at h
          dsimp only at h
          injection h with he
          rw [he] at hin
          exact ih name 1 hin
        | ok p =>
          rw [hin] at h
          cases p with
          | mk evs r => simp at h
      · rw [if_neg hd] at h
        exact printTreeLoop_no_assert ora cascade push a
          (fun c => printTree ora dag cascade push (some a) f c (depth + 1)) depth
          (fun c => ih c (depth + 1)) (childListF dag name)
          (fun b hb => hwf _ _ hdag b (by simpa [childListF, hdag] using hb)) h

/-- On a well-formed dag, an attached `print_dag` never raises the
`branch_name` assertion. -/
theorem print_dag_no_assert (ora : VcsOracle) (dag : Dag) (cascade push : Bool)
    (a : String) (fuel : Nat) (hwf : WellFormedDag dag) :
    ∀ rs, print_dag ora dag cascade push (some a) fuel rs ≠
      Except.error WalkErr.assertErr := by
  intro rs
  induction rs with
  | nil => intro h; simp [print_dag] at h
  | cons o rs ih =>
    intro h
    cases o with
    | none => rw [print_dag] at h; exact ih h
    | some r =>
      rw [print_dag] at h
      cases hpt : printTree ora dag cascade push (some a) fuel r 0 with
      | error e =>
        rw [hpt] at h
        dsimp only at h
        injection h with he
        rw [he] at hpt
        exact printTree_no_assert ora dag cascade push a hwf fuel r 0 hpt
      | ok p =>
        rw [hpt] at h
        cases p with
        | mk evs flag =>
          cases flag with
          | false => simp at h
          | true =>
            simp only [if_true] at h
            cases hrest : print_dag ora dag cascade push (some a) fuel rs with
            | error e =>
              rw [hrest] at h
              dsimp only at h
              injection h with he
              rw [he] at hrest
              exact ih hrest
            | ok evs2 => rw [hrest] at h; simp at h

/-- C8: whenever a cascade ran and `main` exited cleanly, the trace checks out
the originally active branch (a no-op checkout in a detached start) after the
cascade render and immediately before the final status render, which is the
non-cascade walk of the same roots — this holds for every `--cascade` run,
detached starts and `--branch` runs included. -/
theorem main_cascade_restores_initial_branch (ctxOk : Bool) (repo : Repo)
    (ora : VcsOracle) (args : Args) (fuel : Nat) (trace : List Event)
    (hc : args.cascade = true)
    (hm : mainModel ctxOk repo ora args fuel = some (Except.ok trace)) :
    ∃ pre evs1 evs2,
      trace = pre ++ evs1 ++ finalCheckoutEvs repo.activeBranch ++ evs2 ∧
      print_dag ora (buildGitDag repo.branches).1 args.cascade args.push
        (resolvedStartBranch repo args) fuel [resolvedStartBranch repo args] =
        Except.ok evs1 ∧
      print_dag ora (buildGitDag repo.branches).1 false false
        (postCascadeActive repo args) fuel [resolvedStartBranch repo args] =
        Except.ok evs2 := by
  have hA : resolvedStartBranch repo args =
      (if optTruthy args.branch = true then args.branch
        else Option.map stripName repo.activeBranch) := rfl
  have hP : postCascadeActive repo args =
      (match repo.activeBranch with
       | some raw => some raw
       | none => if optTruthy args.branch = true then args.branch
           else Option.map stripName repo.activeBranch) := by
    unfold postCascadeActive
    rw [hA]
  unfold mainModel at hm
  rw [hc] at hm ⊢
  split at hm
  · simp at hm
  · dsimp only at hm
    simp only [reduceIte] at hm
    cases hcp : checkoutPhase ora
        (if optTruthy args.branch = true then args.branch
          else Option.map stripName repo.activeBranch)
        (Option.map stripName repo.activeBranch) with
    | error e => rw [hcp] at hm; simp at hm
    | ok evs1p =>
      rw [hcp] at hm
      cases hrp : refreshPhase ora args.refresh
          (if optTruthy args.branch = true then args.branch
            else Option.map stripName repo.activeBranch) with
      | error e => rw [hrp] at hm; simp at hm
      | ok evs2p =>
        rw [hrp] at hm
        dsimp only at hm
        cases hpd1 : print_dag ora (buildGitDag repo.branches).1 true args.push
            (if optTruthy args.branch = true then args.branch
              else Option.map stripName repo.activeBranch) fuel
            [if optTruthy args.branch = true then args.branch
              else Option.map stripName repo.activeBranch] with
        | error e => rw [hpd1] at hm; cases e <;> simp at hm
        | ok evs3 =>
          rw [hpd1] at hm
          dsimp only at hm
          cases hfc : finalCheckoutPhase ora repo.activeBranch with
          | error e => rw [hfc] at hm; simp at hm
          | ok evs4 =>
            rw [hfc] at hm
            dsimp only at hm
            cases hpd2 : print_dag ora (buildGitDag repo.branches).1 false false
                (match repo.activeBranch with
                 | some raw => some raw
                 | none => if optTruthy args.branch = true then args.branch
                     else Option.map stripName repo.activeBranch) fuel
                [if optTruthy args.branch = true then args.branch
                  else Option.map stripName repo.activeBranch] with
            | error e => rw [hpd2] at hm; cases e <;> simp at hm
            | ok evs5 =>
              rw [hpd2] at hm
              simp only [Option.some_inj, Except.ok.injEq] at hm
              rw [finalCheckoutPhase_ok_shape ora repo.activeBranch evs4 hfc] at hm
              refine ⟨evs1p ++ evs2p, evs3, evs5, ?_, ?_, ?_⟩
              · rw [← hm]
              · rw [hA]
                exact hpd1
              · rw [hP, hA]
                exact hpd2

/-- Witness for `main_cascade_restores_initial_branch` on a detached-HEAD
repository cascaded with `--branch master`. -/
theorem main_cascade_restores_initial_branch_witness :
    (argsCas.cascade = true ∧
      mainModel true repoDet oraOk argsCas 5 = some (Except.ok mainTraceEx)) ∧
    ∃ pre evs1 evs2,
      mainTraceEx = pre ++ evs1 ++ finalCheckoutEvs repoDet.activeBranch ++ evs2 ∧
      print_dag oraOk (buildGitDag repoDet.branches).1 argsCas.cascade argsCas.push
        (resolvedStartBranch repoDet argsCas) 5
        [resolvedStartBranch repoDet argsCas] = Except.ok evs1 ∧
      print_dag oraOk (buildGitDag repoDet.branches).1 false false
        (postCascadeActive repoDet argsCas) 5
        [resolvedStartBranch repoDet argsCas] = Except.ok evs2 :=
  ⟨⟨rfl, by rfl⟩,
    main_cascade_restores_initial_branch true repoDet oraOk argsCas 5 mainTraceEx
      rfl (by rfl)⟩

/-- C9 (amended): `main` exits non-zero only when the repository context is
missing, when checking out the resolved start branch fails, when `--refresh`
runs with no resolvable active branch, when rendering runs with no resolvable
active branch (the `branch_name` assertion inside `create_branch_str`), or
when the post-cascade checkout of the original branch fails; with those ruled
out — context found, checkouts succeed, and the start branch resolves — every
terminating run, whatever rebase or push failures the cascade hits, exits
zero. -/
theorem main_exit_characterization (ctxOk : Bool) (repo : Repo)
    (ora : VcsOracle) (args : Args) (fuel : Nat)
    (res : Except MainErr (List Event))
    (hm : mainModel ctxOk repo ora args fuel = some res) :
    (∀ e, res = Except.error e →
      (e = MainErr.noRepoContext ∧ ctxOk = false) ∨
      (∃ s, e = MainErr.startCheckoutFailed s ∧ ora.checkoutFails s = true) ∨
      (e = MainErr.refreshAssertFailure ∧ args.refresh = true ∧
        resolvedStartBranch repo args = none) ∨
      (e = MainErr.renderAssertFailure ∧ resolvedStartBranch repo args = none) ∨
      (∃ raw, e = MainErr.finalCheckoutFailed ∧ args.cascade = true ∧
        repo.activeBranch = some raw ∧ ora.checkoutFails raw = true))
    ∧ (ctxOk = true → (∀ s, ora.checkoutFails s = false) →
        (args.refresh = true → (resolvedStartBranch repo args).isSome = true) →
        (resolvedStartBranch repo args).isSome = true →
        ∃ tr, res = Except.ok tr) := by
  have hAres : resolvedStartBranch repo args =
      (if optTruthy args.branch = true then args.branch
        else Option.map stripName repo.activeBranch) := rfl
  constructor
  · intro e hres
    subst hres
    unfold mainModel at hm
    split at hm
    · next hctx =>
      simp only [Option.some_inj, Except.error.injEq] at hm
      exact Or.inl ⟨hm.symm, hctx⟩
    · next hctx =>
      dsimp only at hm
      cases hcp : checkoutPhase ora
          (if optTruthy args.branch = true then args.branch
            else Option.map stripName repo.activeBranch)
          (Option.map stripName repo.activeBranch) with
      | error e2 =>
        rw [hcp] at hm
        simp only [Option.some_inj, Except.error.injEq] at hm
        obtain ⟨s, hs, hcf⟩ := checkoutPhase_error ora _ _ e2 hcp
        subst hm
        exact Or.inr (Or.inl ⟨s, hs, hcf⟩)
      | ok evs1 =>
        rw [hcp] at hm
        cases hrp : refreshPhase ora args.refresh
            (if optTruthy args.branch = true then args.branch
              else Option.map stripName repo.activeBranch) with
        | error e2 =>
          rw [hrp] at hm
          simp only [Option.some_inj, Except.error.injEq] at hm
          obtain ⟨h1, h2, h3⟩ := refreshPhase_error ora _ _ e2 hrp
          subst hm
          refine Or.inr (Or.inr (Or.inl ⟨h1, h2, ?_⟩))
          rw [hAres, h3]
        | ok evs2 =>
          rw [hrp] at hm
          dsimp only at hm
          cases hpd1 : print_dag ora (buildGitDag repo.branches).1 args.cascade
              args.push
              (if optTruthy args.branch = true then args.branch
                else Option.map stripName repo.activeBranch) fuel
              (if args.cascade = true then
                [if optTruthy args.branch = true then args.branch
                  else Option.map stripName repo.activeBranch]
              else if optTruthy args.branch = true then [args.branch]
              else List.map some (buildGitDag repo.branches).2) with
          | error e2 =>
            rw [hpd1] at hm
            cases e2 with
            | fuelOut => simp at hm
            | assertErr =>
              simp only [Option.some_inj, Except.error.injEq] at hm
              subst hm
              refine Or.inr (Or.inr (Or.inr (Or.inl ⟨rfl, ?_⟩)))
              cases hsb : (if optTruthy args.branch = true then args.branch
                  else Option.map stripName repo.activeBranch) with
              | none => rw [hAres, hsb]
              | some s =>
                exfalso
                rw [hsb] at hpd1
                exact print_dag_no_assert ora (buildGitDag repo.branches).1
                  args.cascade args.push s fuel (buildGitDag_wf repo.branches)
                  _ hpd1
          | ok evs3 =>
            rw [hpd1] at hm
            dsimp only at hm
            split at hm
            · next hcas =>
              cases hfc : finalCheckoutPhase ora repo.activeBranch with
              | error e2 =>
                rw [hfc] at hm
                simp only [Option.some_inj, Except.error.injEq] at hm
                obtain ⟨raw, h1, h2, h3⟩ :=
                  finalCheckoutPhase_error ora repo.activeBranch e2 hfc
                subst hm
                exact Or.inr (Or.inr (Or.inr (Or.inr ⟨raw, h1, hcas, h2, h3⟩)))
              | ok evs4 =>
                rw [hfc] at hm
                dsimp only at hm
                cases hpd2 : print_dag ora (buildGitDag repo.branches).1 false
                    false
                    (match repo.activeBranch with
                     | some raw => some raw
                     | none => if optTruthy args.branch = true then args.branch
                         else Option.map stripName repo.activeBranch) fuel
                    [if optTruthy args.branch = true then args.branch
                      else Option.map stripName repo.activeBranch] with
                | error e2 =>
                  rw [hpd2] at hm
                  cases e2 with
                  | fuelOut => simp at hm
                  | assertErr =>
                    simp only [Option.some_inj, Except.error.injEq] at hm
                    subst hm
                    refine Or.inr (Or.inr (Or.inr (Or.inl ⟨rfl, ?_⟩)))
                    cases hsb : (if optTruthy args.branch = true then args.branch
                        else Option.map stripName repo.activeBranch) with
                    | none => rw [hAres, hsb]
                    | some s =>
                      exfalso
                      rw [hsb] at hpd2
                      cases hab : repo.activeBranch with
                      | some raw =>
                        rw [hab] at hpd2
                        dsimp only at hpd2
                        exact print_dag_no_assert ora
                          (buildGitDag repo.branches).1 false false raw fuel
                          (buildGitDag_wf repo.branches) _ hpd2
                      | none =>
                        rw [hab] at hpd2
                        dsimp only at hpd2
                        exact print_dag_no_assert ora
                          (buildGitDag repo.branches).1 false false s fuel
                          (buildGitDag_wf repo.branches) _ hpd2
                | ok evs5 => rw [hpd2] at hm; simp at hm
            · simp at hm
  · intro hctx hck href hsome
    obtain ⟨sb, hsbeq⟩ := Option.isSome_iff_exists.mp hsome
    have hsb2 : (if optTruthy args.branch = true then args.branch
        else Option.map stripName repo.activeBranch) = some sb := by
      rw [← hAres]
      exact hsbeq
    unfold mainModel at hm
    rw [hctx] at hm
    simp only [Bool.true_eq_false, if_false] at hm
    obtain ⟨evs1, hcp⟩ := checkoutPhase_ok ora
      (if optTruthy args.branch = true then args.branch
        else Option.map stripName repo.activeBranch)
      (Option.map stripName repo.activeBranch) hck
    rw [hcp] at hm
    obtain ⟨evs2, hrp⟩ := refreshPhase_ok ora args.refresh
      (if optTruthy args.branch = true then args.branch
        else Option.map stripName repo.activeBranch)
      (fun hr => by rw [← hAres]; exact href hr)
    rw [hrp] at hm
    dsimp only at hm
    cases hpd1 : print_dag ora (buildGitDag repo.branches).1 args.cascade
        args.push
        (if optTruthy args.branch = true then args.branch
          else Option.map stripName repo.activeBranch) fuel
        (if args.cascade = true then
          [if optTruthy args.branch = true then args.branch
            else Option.map stripName repo.activeBranch]
        else if optTruthy args.branch = true then [args.branch]
        else List.map some (buildGitDag repo.branches).2) with
    | error e2 =>
      cases e2 with
      | fuelOut => rw [hpd1] at hm; simp at hm
      | assertErr =>
        exfalso
        rw [hsb2] at hpd1
        exact print_dag_no_assert ora (buildGitDag repo.branches).1 args.cascade
          args.push sb fuel (buildGitDag_wf repo.branches) _ hpd1
    | ok evs3 =>
      rw [hpd1] at hm
      dsimp only at hm
      split at hm
      · rw [finalCheckoutPhase_ok ora repo.activeBranch hck] at hm
        dsimp only at hm
        cases hpd2 : print_dag ora (buildGitDag repo.branches).1 false false
            (match repo.activeBranch with
             | some raw => some raw
             | none => if optTruthy args.branch = true then args.branch
                 else Option.map stripName repo.activeBranch) fuel
            [if optTruthy args.branch = true then args.branch
              else Option.map stripName repo.activeBranch] with
        | error e2 =>
          cases e2 with
          | fuelOut => rw [hpd2] at hm; simp at hm
          | assertErr =>
            exfalso
            rw [hsb2] at hpd2
            cases hab : repo.activeBranch with
            | some raw =>
              rw [hab] at hpd2
              dsimp only at hpd2
              exact print_dag_no_assert ora (buildGitDag repo.branches).1
                false false raw fuel (buildGitDag_wf repo.branches) _ hpd2
            | none =>
              rw [hab] at hpd2
              dsimp only at hpd2
              exact print_dag_no_assert ora (buildGitDag repo.branches).1
                false false sb fuel (buildGitDag_wf repo.branches) _ hpd2
        | ok evs5 =>
          rw [hpd2] at hm
          simp only [Option.some_inj] at hm
          exact ⟨_, hm.symm⟩
      · simp only [Option.some_inj] at hm
        exact ⟨_, hm.symm⟩

/-- Counterexample to C9 as stated: with a repository context located
(`ctxOk = true`), a run whose `--branch feature` checkout fails still
terminates with an uncaught exception — a non-zero exit not caused by failing
to locate a repository context. -/
theorem main_nonzero_despite_repo_context :
    mainModel true repoEx oraCkFail argsEx 3 =
      some (Except.error (MainErr.startCheckoutFailed "feature")) := by
  rfl

/-- Witness for `main_exit_characterization` on a concrete clean cascade run. -/
theorem main_exit_characterization_witness :
    mainModel true repoDet oraOk argsCas 5 = some (Except.ok mainTraceEx) ∧
    ((∀ e, (Except.ok mainTraceEx : Except MainErr (List Event)) =
        Except.error e →
      (e = MainErr.noRepoContext ∧ true = false) ∨
      (∃ s, e = MainErr.startCheckoutFailed s ∧ oraOk.checkoutFails s = true) ∨
      (e = MainErr.refreshAssertFailure ∧ argsCas.refresh = true ∧
        resolvedStartBranch repoDet argsCas = none) ∨
      (e = MainErr.renderAssertFailure ∧
        resolvedStartBranch repoDet argsCas = none) ∨
      (∃ raw, e = MainErr.finalCheckoutFailed ∧ argsCas.cascade = true ∧
        repoDet.activeBranch = some raw ∧ oraOk.checkoutFails raw = true))
    ∧ (true = true → (∀ s, oraOk.checkoutFails s = false) →
        (argsCas.refresh = true →
          (resolvedStartBranch repoDet argsCas).isSome = true) →
        (resolvedStartBranch repoDet argsCas).isSome = true →
        ∃ tr, (Except.ok mainTraceEx : Except MainErr (List Event)) =
          Except.ok tr)) :=
  ⟨by rfl, main_exit_characterization true repoDet oraOk argsCas 5
    (Except.ok mainTraceEx) (by rfl)⟩
